import Mathlib

/-!
Verification of the MPC compiler's shared IR vocabulary (`ast_shared.py`)
and of the TAC-CFG → SSA construction stage (`tac_cfg_to_ssa.py`).

The Python source is embedded shallowly: pure Python functions become Lean
functions, in-place mutation becomes explicit state passing, Python `dict`
lookups become `Option`-valued maps, and fallible code (KeyError,
IndexError, TypeError, failing `assert`) returns `Except`.
-/

namespace MPC

/-- Embedding of `VarVisibility` from `ast_shared.py`: closed set {PLAINTEXT, SHARED}. -/
inductive VarVisibility
  | plaintext
  | shared
deriving DecidableEq, Repr

/-- Embedding of `DataType` from `ast_shared.py`: closed set {INT, BOOL}. -/
inductive DataType
  | int
  | bool
deriving DecidableEq, Repr

/-- Embedding of `VarType` from `ast_shared.py`: triple of optional fields
`(visibility?, dims?, datatype?)`; `None` is the unknown value.
`dims` is a Python `int`, so it is embedded as `Int`. -/
structure VarType where
  visibility : Option VarVisibility := none
  dims : Option Int := none
  datatype : Option DataType := none
deriving DecidableEq, Repr

namespace VarType

/-- Embedding of `VarType.drop_dim` from `ast_shared.py` lines 45-49. -/
def drop_dim (t : VarType) : VarType :=
  match t.dims with
  | none => ⟨t.visibility, none, t.datatype⟩
  | some d => ⟨t.visibility, some (d - 1), t.datatype⟩

/-- Embedding of `VarType.add_dim` from `ast_shared.py` lines 51-55. -/
def add_dim (t : VarType) : VarType :=
  match t.dims with
  | none => ⟨t.visibility, none, t.datatype⟩
  | some d => ⟨t.visibility, some (d + 1), t.datatype⟩

/-- Embedding of `VarType.could_become` from `ast_shared.py` lines 63-68.
Python `x in [y, None]` means `x == y or x is None`. -/
def could_become (t supertype : VarType) : Bool :=
  (decide (t.visibility = supertype.visibility) || decide (t.visibility = none)) &&
  (decide (t.datatype = supertype.datatype) || decide (t.datatype = none)) &&
  (decide (t.dims = supertype.dims) || decide (t.dims = none))

/-- The specification's reading of `could_become` ("each known field in
`self` matches `super` or `super` is unknown"), stated for comparison
with the source definition: every field of `t` that is known must equal
the corresponding field of `supertype` unless that field of `supertype`
is unknown. -/
def could_become_specRead (t supertype : VarType) : Bool :=
  (decide (t.visibility = supertype.visibility) || decide (t.visibility = none)
    || decide (supertype.visibility = none)) &&
  (decide (t.datatype = supertype.datatype) || decide (t.datatype = none)
    || decide (supertype.datatype = none)) &&
  (decide (t.dims = supertype.dims) || decide (t.dims = none)
    || decide (supertype.dims = none))

/-- Error outcomes of `VarType.merge`: the failing `assert len(types) > 0`,
and the three `TypeError` raises for visibility, dims and datatype. -/
inductive MergeErr
  | assertion
  | visibilityErr
  | dimsErr
  | datatypeErr
deriving DecidableEq, Repr

/-- Embedding of `VarType.merge` from `ast_shared.py` lines 77-129, with the two keyword
flags as explicit arguments (defaults `mixed_shared_plaintext_allowed=True`,
`mixed_datatypes_allowed=False`).  Python's `len(set(xs)) > 1` (number of
distinct values) is embedded as `xs.dedup.length > 1`. -/
def merge (types : List VarType)
    (mixed_shared_plaintext_allowed : Bool := true)
    (mixed_datatypes_allowed : Bool := false) : Except MergeErr VarType :=
  if types.length > 0 then
    let elem_visibilities := types.map (·.visibility)
    let elem_dims := (types.filterMap (·.dims))
    let elem_datatypes := (types.filterMap (·.datatype))
    if (elem_visibilities.filterMap id).dedup.length > 1 &&
        !mixed_shared_plaintext_allowed then
      .error .visibilityErr
    else
      let vis : Option VarVisibility :=
        if elem_visibilities.any (fun v => decide (v = some .shared)) then
          some .shared
        else if elem_visibilities.all (fun v => decide (v = some .plaintext)) then
          some .plaintext
        else none
      if elem_dims.dedup.length > 1 then
        .error .dimsErr
      else
        let dims : Option Int := elem_dims.head?
        if elem_datatypes.dedup.length > 1 && !mixed_datatypes_allowed then
          .error .datatypeErr
        else
          .ok ⟨vis, dims, elem_datatypes.head?⟩
  else
    .error .assertion

end VarType

/-- The name field of `Var` from `ast_shared.py`: a string for user
variables, an integer for compiler-generated temporaries. -/
inductive VarName
  | str (s : String)
  | temp (n : Int)
deriving DecidableEq, Repr

/-- Embedding of `Var` from `ast_shared.py` lines 169-186: a name plus an optional SSA
rename subscript.  Frozen dataclass, so equality is componentwise. -/
structure Var where
  name : VarName
  rename_subscript : Option Int := none
deriving DecidableEq, Repr

/-- Decimal digit characters of a natural number, most significant first,
by repeated division; the first argument is recursion fuel (any value at
least `n` computes all digits). -/
def pyNatCharsAux : Nat → Nat → List Char
  | 0, _ => []
  | _ + 1, 0 => []
  | fuel + 1, m + 1 =>
    pyNatCharsAux fuel ((m + 1) / 10) ++ [Nat.digitChar ((m + 1) % 10)]

/-- Decimal string characters Python's `str` produces for a natural
number; Python prints `0` as `"0"`. -/
def pyNatChars (n : Nat) : List Char :=
  if n = 0 then ['0'] else pyNatCharsAux n n

/-- The characters Python's `str` produces for an `int`: an optional minus
sign followed by the decimal digits. -/
def pyIntChars (i : Int) : List Char :=
  if i < 0 then '-' :: pyNatChars i.natAbs else pyNatChars i.natAbs

/-- Python `f"{name}"` for the `Var.name` field (no `!` marker): the raw
string for user names, the decimal for temporaries. -/
def VarName.baseChars : VarName → List Char
  | .str s => s.data
  | .temp n => pyIntChars n

namespace Var

/-- Embedding of `Var.__str__` from `ast_shared.py` lines 183-186: the name (prefixed
with `!` for integer names) followed by `!subscript` when the rename
subscript is present. -/
def str (v : Var) : String :=
  ⟨(match v.name with
     | .str s => s.data
     | .temp n => '!' :: pyIntChars n) ++
   (match v.rename_subscript with
     | none => []
     | some i => '!' :: pyIntChars i)⟩

end Var

/-- Embedding of `BinOpKind` from `ast_shared.py` lines 226-241. -/
inductive BinOpKind
  | add | sub | mul | div | mod | shl | shr
  | lt | gt | lt_e | gt_e | eq | not_eq | and | or
deriving DecidableEq, Repr

namespace BinOpKind

/-- Embedding of `BinOpKind.get_ret_datatype` from `ast_shared.py` lines 243-268: INT for
the seven arithmetic operators, BOOL for the six comparisons and the two
logical operators, and the `raise ValueError` branch otherwise. -/
def get_ret_datatype (k : BinOpKind) : Except String DataType :=
  if k ∈ [add, sub, mul, div, mod, shl, shr] then
    .ok .int
  else if k ∈ [lt, gt, lt_e, gt_e, eq, not_eq, and, or] then
    .ok .bool
  else
    .error "Unhandled binary operation"

/-- Embedding of `BinOpKind.get_operand_datatypes` from `ast_shared.py` lines 270-295. -/
def get_operand_datatypes (k : BinOpKind) : Except String (List DataType) :=
  if k ∈ [add, sub, mul, div, mod, shl, shr, lt, gt, lt_e, gt_e] then
    .ok [.int]
  else if k ∈ [eq, not_eq, and, or] then
    .ok [.int, .bool]
  else
    .error "Unhandled binary operation"

end BinOpKind

end MPC

namespace MPC

/-- Embedding of `UnaryOpKind` from `ast_shared.py` lines 301-303. -/
inductive UnaryOpKind
  | negate
  | not
deriving DecidableEq, Repr

/-- Modelled from the spec: the `SubscriptIndex` expression grammar of §3
(`Var | Constant | BinOp | UnaryOp` over subscript indices); the module
defining it for the TAC/SSA IR is not under `src/`, and the SSA pass never
inspects it (`Index` operands are skipped with a TODO). -/
inductive SubIdx
  | var (v : Var)
  | const (value : Int) (datatype : DataType)
  | binOp (left : SubIdx) (operator : BinOpKind) (right : SubIdx)
  | unaryOp (operator : UnaryOpKind) (operand : SubIdx)
deriving DecidableEq, Repr

/-- Modelled from the spec: `ssa.Index(array, index)`, an array subscript
location (`Subscript(array: Var, index: SubscriptIndex)` in §3); `ssa.py`
itself is not under `src/`. -/
structure IndexE where
  array : Var
  index : SubIdx
deriving DecidableEq, Repr

/-- Modelled from the spec: `ssa.AssignLHS`, the sum of a plain variable and
an array-subscript location, as used by `tac_cfg_to_ssa.py` (its renaming
step distinguishes exactly the cases `ssa.Var` and `ssa.Index`). -/
inductive AssignLHS
  | var (v : Var)
  | index (i : IndexE)
deriving DecidableEq, Repr

/-- Modelled from the spec: the right-hand sides of three-address
assignments, `ConstantInt | Var | Index(array, index) | BinOp(Var, op, Var)
| UnaryOp(op, Var)` (§3 "Basic block"), matching the `isinstance` cases of
`tac_cfg_to_ssa.py` lines 169-185. -/
inductive AssignRHS
  | constInt (value : Int)
  | var (v : Var)
  | index (i : IndexE)
  | binOp (left : Var) (operator : BinOpKind) (right : Var)
  | unaryOp (operator : UnaryOpKind) (operand : Var)
deriving DecidableEq, Repr

/-- Modelled from the spec: a three-address assignment `lhs := rhs`. -/
structure Assign where
  lhs : AssignLHS
  rhs : AssignRHS
deriving DecidableEq, Repr

/-- Modelled from the spec: block terminators
`Jump | ConditionalJump(cond: Var) | Return(value: Var)` (§3); jump targets
live on the CFG edges, and the pass reads only `condition` and `value`
(`tac_cfg_to_ssa.py` lines 157-165, 186-191). -/
inductive Terminator
  | jump
  | condJump (condition : Var)
  | ret (value : Var)
deriving DecidableEq, Repr

/-- Modelled from the spec: a Φ-function `(lhs, rhs)`; the pass constructs
them with `ssa.Phi(lhs=V, rhs=[V] * num_predecessors)` where `V` ranges over
assignment left-hand sides, so both fields hold `AssignLHS` values. -/
structure Phi where
  lhs : AssignLHS
  rhs : List AssignLHS
deriving DecidableEq, Repr

/-- Modelled from the spec: an SSA basic block
`(phi_functions, assignments, terminator)` (§3). -/
structure Block where
  phi_functions : List Phi
  assignments : List Assign
  terminator : Terminator
deriving DecidableEq, Repr

/-- Block handle: Python block objects are identified by object identity
(they hash by `id`); the embedding names them by a stable arena index. -/
abbrev BlockId := Nat

/-- Modelled from the spec: `BranchKind ∈ {UNCONDITIONAL, TRUE, FALSE}`. -/
inductive BranchKind
  | unconditional
  | true_branch
  | false_branch
deriving DecidableEq, Repr

/-- A CFG edge with its `branch_kind` label. -/
abbrev Edge := BlockId × BlockId × BranchKind

/-- Modelled from the spec: a TAC-CFG basic block (no Φ-functions yet). -/
structure TacBlock where
  assignments : List Assign
  terminator : Terminator
deriving DecidableEq, Repr

/-- Modelled from the spec: `tac_cfg.Function`.  `body.nodes` becomes the
list `nodes` (node insertion order) together with the arena `content`;
`parameters` holds the parameter variables, which the renaming step seeds
directly as rename-dictionary keys (§4.4: "Parameters are pre-seeded with
subscript 0 and counter 1"). -/
structure TacFunc where
  parameters : List Var
  nodes : List BlockId
  content : BlockId → TacBlock
  edges : List Edge
  entry_block : BlockId
  exit_block : BlockId

/-- A finite map embedded as an association list; an update prepends, so
lookups see the newest binding first (Python dict assignment). -/
def dfind {κ β : Type} [DecidableEq κ] : List (κ × β) → κ → Option β
  | [], _ => none
  | (k', v) :: rest, k => if k = k' then some v else dfind rest k

/-- Dict update `d[k] = v`. -/
def dput {κ β : Type} (m : List (κ × β)) (k : κ) (v : β) : List (κ × β) :=
  (k, v) :: m

/-- The block arena: identity → block contents. -/
abbrev Blocks := List (BlockId × Block)

/-- Contents of a block handle; handles are only ever created for blocks
present in the arena, so the default is never observed in a real run. -/
def blockAt (bs : Blocks) (id : BlockId) : Block :=
  (dfind bs id).getD ⟨[], [], .jump⟩

/-- Modelled from the spec: `ssa.Function`, same shape with SSA blocks
held in the arena. -/
structure SSAFunc where
  parameters : List Var
  nodes : List BlockId
  blocks : Blocks
  edges : List Edge
  entry_block : BlockId
  exit_block : BlockId
deriving DecidableEq, Repr

/-- Predecessors of a node: sources of in-edges, in edge insertion order
(matching `networkx.DiGraph.predecessors`). -/
def predsOf (edges : List Edge) (y : BlockId) : List BlockId :=
  (edges.filter (fun e => decide (e.2.1 = y))).map (·.1)

/-- Successors of a node: targets of out-edges, in edge insertion order
(matching `networkx.DiGraph.successors`). -/
def succsOf (edges : List Edge) (x : BlockId) : List BlockId :=
  (edges.filter (fun e => decide (e.1 = x))).map (·.2.1)

/-- Static context of one `tac_cfg_to_ssa` run.  `preds`/`succs` come from
the CFG.  `DF` is `networkx.algorithms.dominance_frontiers` and `children`
is the dominator-tree child relation computed by `_compute_dominance_tree`
from `networkx.algorithms.immediate_dominators`; both are external library
results held in Python `dict`s of `set`s, so the embedding takes them as
inputs, each `List` recording the iteration order of the corresponding set
(which Python does not fix for id-hashed block objects). -/
structure Ctx where
  preds : BlockId → List BlockId
  succs : BlockId → List BlockId
  DF : BlockId → List BlockId
  children : BlockId → List BlockId

/-- Python-level failures of the pass: `KeyError` (missing dict key),
`IndexError` (empty-list `[-1]`/`pop`/`[0]`), plus an out-of-fuel marker
used to make the embedded recursions total. -/
inductive PyErr
  | keyError
  | indexError
  | fuel
deriving DecidableEq, Repr

/-- Decidable equality of `Except` results. -/
instance exceptDecEq {ε α : Type} [DecidableEq ε] [DecidableEq α] :
    DecidableEq (Except ε α)
  | .error e, .error e' =>
    if h : e = e' then .isTrue (by rw [h])
    else .isFalse (fun hh => h (by cases hh; rfl))
  | .error _, .ok _ => .isFalse (fun hh => Except.noConfusion hh)
  | .ok _, .error _ => .isFalse (fun hh => Except.noConfusion hh)
  | .ok a, .ok b =>
    if h : a = b then .isTrue (by rw [h])
    else .isFalse (fun hh => h (by cases hh; rfl))

/-- Lookup in an embedded Python dict: a missing key raises `KeyError`. -/
def dget {κ β : Type} [DecidableEq κ] (m : List (κ × β)) (k : κ) :
    Except PyErr β :=
  match dfind m k with
  | some v => .ok v
  | none => .error .keyError

/-- Embedding of `_tac_cfg_to_ssa_struct` (`tac_cfg_to_ssa.py` lines
56-95): copy every block with an empty `phi_functions` list, keeping
assignments, terminators, parameters and edges. -/
def tacCfgToSsaStruct (f : TacFunc) : SSAFunc :=
  { parameters := f.parameters
    nodes := f.nodes
    blocks := f.nodes.map (fun id =>
      (id, { phi_functions := []
             assignments := (f.content id).assignments
             terminator := (f.content id).terminator }))
    edges := f.edges
    entry_block := f.entry_block
    exit_block := f.exit_block }

/-- Key order of `_compute_blocks_setting_vars` (lines 17-33): assignment
left-hand sides in first-occurrence order over `body.nodes` and each
block's assignment list (Python dict keys preserve insertion order). -/
def settingKeys (g : SSAFunc) : List AssignLHS :=
  g.nodes.foldl
    (fun acc id =>
      ((blockAt g.blocks id).assignments.map (·.lhs)).foldl
        (fun acc k => if k ∈ acc then acc else acc ++ [k]) acc)
    []

/-- Value sets of `_compute_blocks_setting_vars`: the blocks assigning a
given lhs.  The Python value is a `set` of blocks; the embedding lists
them in node order (the placement result does not depend on this
order). -/
def settingBlocks (g : SSAFunc) (k : AssignLHS) : List BlockId :=
  g.nodes.filter (fun id =>
    (blockAt g.blocks id).assignments.any (fun a => decide (a.lhs = k)))

/-- State of the Φ-placement loops (`tac_cfg_to_ssa.py` lines 111-133):
the mutable blocks plus the `has_already` and `work` counters and the
worklist `W`.  The counters are Python `Counter`s (default 0), embedded as
association lists read through `counterAt`.  `W` is a Python `set`; the
embedding keeps it as a duplicate-free list, popping from the front. -/
structure PlSt where
  blocks : Blocks
  has_already : List (BlockId × Nat)
  work : List (BlockId × Nat)
  W : List BlockId
deriving DecidableEq, Repr

/-- Read a Python `Counter` (missing keys count 0). -/
def counterAt (m : List (BlockId × Nat)) (k : BlockId) : Nat :=
  (dfind m k).getD 0

/-- Python `set.add`. -/
def addW (W : List BlockId) (y : BlockId) : List BlockId :=
  if y ∈ W then W else W ++ [y]

/-- Body of the `for Y in dominance_frontiers[X]` loop (lines 125-133):
append `Phi(lhs=V, rhs=[V] * num_predecessors)` to `Y` when `Y` has not
yet received a Φ for this variable iteration, then stamp it and extend the
worklist. -/
def placeDFStep (ctx : Ctx) (V : AssignLHS) (iter : Nat) (st : PlSt)
    (Y : BlockId) : PlSt :=
  if counterAt st.has_already Y < iter then
    let num_predecessors := (ctx.preds Y).length
    let B := blockAt st.blocks Y
    let st :=
      { st with
        blocks := dput st.blocks Y
          { B with phi_functions :=
              B.phi_functions ++ [⟨V, List.replicate num_predecessors V⟩] }
        has_already := dput st.has_already Y iter }
    if counterAt st.work Y < iter then
      { st with work := dput st.work Y iter, W := addW st.W Y }
    else st
  else st

/-- The `while W != set()` loop (lines 123-133), with fuel making the
recursion total. -/
def placeWhile (ctx : Ctx) (V : AssignLHS) (iter : Nat) :
    Nat → PlSt → Except PyErr PlSt
  | 0, _ => .error .fuel
  | fuelW + 1, st =>
    match st.W with
    | [] => .ok st
    | X :: W' =>
      placeWhile ctx V iter fuelW
        ((ctx.DF X).foldl (placeDFStep ctx V iter) { st with W := W' })

/-- The `for X in blocks_setting_vars[V]` stamping loop (lines 119-121). -/
def stampDefs (iter : Nat) (st : PlSt) (defsV : List BlockId) : PlSt :=
  defsV.foldl
    (fun st X => { st with work := dput st.work X iter, W := addW st.W X })
    st

/-- The outer `for V in blocks_setting_vars.keys()` loop of Φ placement
(lines 116-133). -/
def placeVars (ctx : Ctx) (defsOf : AssignLHS → List BlockId) (fuelW : Nat) :
    List AssignLHS → Nat → PlSt → Except PyErr PlSt
  | [], _, st => .ok st
  | V :: rest, iter_count, st => do
    let iter := iter_count + 1
    let st := stampDefs iter st (defsOf V)
    let st ← placeWhile ctx V iter fuelW st
    placeVars ctx defsOf fuelW rest iter st

/-- State of the renaming step: the mutable blocks and the rename dicts
`S` (stacks of subscripts) and `C` (counters), both keyed by `AssignLHS`. -/
structure RenSt where
  blocks : Blocks
  S : List (AssignLHS × List Int)
  C : List (AssignLHS × Int)
deriving DecidableEq, Repr

/-- Renaming initialisation (lines 137-146): parameters are seeded with
`C[V] = 1`, `S[V] = [0]`, then every assigned lhs is seeded with
`C[V] = 0`, `S[V] = []` (overwriting a reassigned parameter's seed). -/
def initRen (g : SSAFunc) (keys : List AssignLHS) : RenSt :=
  let s0 : RenSt := ⟨g.blocks, [], []⟩
  let s1 := g.parameters.foldl
    (fun s V =>
      { s with S := dput s.S (.var V) [0], C := dput s.C (.var V) 1 })
    s0
  keys.foldl
    (fun s V => { s with S := dput s.S V [], C := dput s.C V 0 })
    s1

/-- The pure part of `subscript_var` (lines 148-152):
`ssa.Var(f"{V.name}!{i}")` — a fresh `Var` whose name string is the old
name followed by `!` and the decimal subscript (no `rename_subscript`). -/
def subVarI (V : Var) (i : Int) : Var :=
  ⟨.str ⟨V.name.baseChars ++ '!' :: pyIntChars i⟩, none⟩

/-- Embedding of `subscript_var(V)` with defaulted subscript: look up
`S[V][-1]` (KeyError on a missing key, IndexError on an empty stack). -/
def subVarTop (s : RenSt) (V : Var) : Except PyErr Var := do
  let stk ← dget s.S (.var V)
  match stk.getLast? with
  | none => .error .indexError
  | some i => .ok (subVarI V i)

/-- Rewriting of the reads of one assignment `rhs` (lines 168-185):
`Index` and `ConstantInt` are left unchanged, variable operands are
replaced by their current subscripted versions. -/
def rewriteAssignRhs (s : RenSt) : AssignRHS → Except PyErr AssignRHS
  | .index i => .ok (.index i)
  | .constInt n => .ok (.constInt n)
  | .var V => (subVarTop s V).map .var
  | .binOp l op r => do
    let l' ← subVarTop s l
    let r' ← subVarTop s r
    .ok (.binOp l' op r')
  | .unaryOp op v => (subVarTop s v).map (.unaryOp op)

/-- Definition handling for a Φ or assignment (lines 197-210): read
`i = C[V]` from the pre-rewrite lhs, rewrite a `Var` lhs to `name!i`
(recording the old lhs), leave an `Index` lhs unchanged (and unrecorded),
then push `i` on `S[V]` and set `C[V] = i + 1` — both keyed by the old
lhs. -/
def defStep (s : RenSt) (L : AssignLHS) :
    Except PyErr (RenSt × AssignLHS × Option AssignLHS) := do
  let i ← dget s.C L
  let (newL, old) :=
    match L with
    | .index _ => (L, (none : Option AssignLHS))
    | .var V => (.var (subVarI V i), some L)
  let stk ← dget s.S L
  let s :=
    { s with
      S := dput s.S L (stk ++ [i])
      C := dput s.C L (i + 1) }
  .ok (s, newL, old)

/-- Processing of a block's Φ-functions inside the main rewrite loop
(line 167 with the `Phi` branches): the rhs is left alone (line 193) and
the lhs goes through `defStep`. -/
def processPhis (s : RenSt) : List Phi → Except PyErr (RenSt × List Phi)
  | [] => .ok (s, [])
  | p :: rest => do
    let (s, newL, _) ← defStep s p.lhs
    let (s, rest') ← processPhis s rest
    .ok (s, ⟨newL, p.rhs⟩ :: rest')

/-- Processing of a block's assignments inside the main rewrite loop:
rewrite the reads, then the definition; the returned list collects the
`old_lhs` entries positionally (`none` when `old_lhs[A]` was not set,
i.e. for an `Index` lhs). -/
def processAssigns (s : RenSt) :
    List Assign → Except PyErr (RenSt × List Assign × List (Option AssignLHS))
  | [] => .ok (s, [], [])
  | a :: rest => do
    let rhs' ← rewriteAssignRhs s a.rhs
    let (s, newL, old) ← defStep s a.lhs
    let (s, rest', olds) ← processAssigns s rest
    .ok (s, ⟨newL, rhs'⟩ :: rest', old :: olds)

/-- Processing of the terminator read (lines 157-165, 186-191): a
`ConditionalJump` condition or `Return` value is rewritten, a `Jump` has
no reads. -/
def processTerminator (s : RenSt) : Terminator → Except PyErr Terminator
  | .jump => .ok .jump
  | .condJump c => (subVarTop s c).map .condJump
  | .ret v => (subVarTop s v).map .ret

/-- Update of the Φ operands of one successor block (lines 219-227): for
each Φ, read `V = F.rhs[j]` and `i = S[V][-1]`, then replace `rhs[j]` by
the subscripted variable when `V` is a `Var` (an `Index` operand is left
unchanged, though its stack is still read first). -/
def phiRhsAt (s : RenSt) (j : Nat) : List Phi → Except PyErr (List Phi)
  | [] => .ok []
  | F :: rest =>
    match F.rhs.get? j with
    | none => .error .indexError
    | some V =>
      match dfind s.S V with
      | none => .error .keyError
      | some stk =>
        match stk.getLast? with
        | none => .error .indexError
        | some i =>
          let F' : Phi :=
            match V with
            | .index _ => F
            | .var W => ⟨F.lhs, F.rhs.set j (.var (subVarI W i))⟩
          (phiRhsAt s j rest).map (F' :: ·)

/-- The `for Y in result.body.successors(X)` loop (lines 212-227):
`j` is the first position of `X` in `Y`'s predecessor enumeration
(IndexError when `X` is not found). -/
def succStep (ctx : Ctx) (X : BlockId) (s : RenSt) :
    List BlockId → Except PyErr RenSt
  | [] => .ok s
  | Y :: rest =>
    match (ctx.preds Y).findIdx? (fun p => decide (p = X)) with
    | none => .error .indexError
    | some j =>
      match phiRhsAt s j (blockAt s.blocks Y).phi_functions with
      | .error e => .error e
      | .ok phis' =>
        let B := blockAt s.blocks Y
        succStep ctx X
          { s with blocks := dput s.blocks Y { B with phi_functions := phis' } }
          rest

/-- The unwind loop (lines 232-234): `for A in X.assignments:
S[old_lhs[A]].pop()`, iterated positionally over the recorded `old_lhs`
entries; a missing entry raises `KeyError`, popping an empty stack raises
`IndexError`. -/
def unwind (s : RenSt) : List (Option AssignLHS) → Except PyErr RenSt
  | [] => .ok s
  | none :: _ => .error .keyError
  | some k :: rest => do
    let stk ← dget s.S k
    match stk.getLast? with
    | none => .error .indexError
    | some _ => unwind { s with S := dput s.S k stk.dropLast } rest

/-- Structural iteration on a fuel value; unlike well-founded recursion it
reduces definitionally, so concrete runs can be evaluated by `decide`. -/
def natIter {α : Type} (z : α) (f : α → α) : Nat → α
  | 0 => z
  | n + 1 => f (natIter z f n)

/-- Sequential processing of a list of blocks by a block-processing
function (the `for Y in dominance_tree[X]: search(Y)` loop shape). -/
def goList (f : BlockId → RenSt → Except PyErr RenSt) :
    List BlockId → RenSt → Except PyErr RenSt
  | [], s => .ok s
  | Y :: rest, s => do
    let s ← f Y s
    goList f rest s

/-- Body of `search(X)` (`tac_cfg_to_ssa.py` lines 154-234): rewrite the
block's Φ lhs, assignments and terminator, update the Φ operands of its
CFG successors, recurse (via `go`) into its dominator-tree children, then
unwind the stacks pushed for its own assignments. -/
def searchBody (ctx : Ctx) (go : BlockId → RenSt → Except PyErr RenSt)
    (X : BlockId) (s : RenSt) : Except PyErr RenSt := do
  let B := blockAt s.blocks X
  let (s, phis') ← processPhis s B.phi_functions
  let (s, asgns', olds) ← processAssigns s B.assignments
  let term' ← processTerminator s B.terminator
  let s :=
    { s with blocks := dput s.blocks X ⟨phis', asgns', term'⟩ }
  let s ← succStep ctx X s (ctx.succs X)
  let s ← goList go (ctx.children X) s
  unwind s olds

/-- Embedding of the recursive `search` of `tac_cfg_to_ssa.py`, with fuel
bounding the recursion depth (the dominator tree of a real run is finite
and acyclic, so any fuel above its depth computes the same result). -/
def search (ctx : Ctx) (fuel : Nat) : BlockId → RenSt → Except PyErr RenSt :=
  natIter (fun _ _ => .error .fuel) (searchBody ctx) fuel

/-- The static context of a run: CFG predecessors/successors from the
function's edges, with the externally supplied dominance data. -/
def mkCtx (f : TacFunc) (DF children : BlockId → List BlockId) : Ctx :=
  ⟨predsOf f.edges, succsOf f.edges, DF, children⟩

/-- Result of the Φ-placement phase: the struct-converted function with
Φ-functions inserted, paired with the variable key order. -/
def placed (f : TacFunc) (DF children : BlockId → List BlockId)
    (fuelW : Nat) : Except PyErr (SSAFunc × List AssignLHS) := do
  let g := tacCfgToSsaStruct f
  let keys := settingKeys g
  let st0 : PlSt := ⟨g.blocks, [], [], []⟩
  let stP ← placeVars (mkCtx f DF children) (settingBlocks g) fuelW keys 0 st0
  .ok ({ g with blocks := stP.blocks }, keys)

/-- Final state of the renaming traversal, starting from the placed
function's initial rename state. -/
def renameFinal (f : TacFunc) (DF children : BlockId → List BlockId)
    (fuelW fuelS : Nat) : Except PyErr RenSt := do
  let (g, keys) ← placed f DF children fuelW
  search (mkCtx f DF children) fuelS g.entry_block (initRen g keys)

/-- Embedding of `tac_cfg_to_ssa` (`tac_cfg_to_ssa.py` lines 98-238):
struct conversion, Φ placement and renaming.  `DF` and `children` are the
externally computed dominance frontiers and dominator-tree children (see
`Ctx`); `fuelW`/`fuelS` bound the two unstructured recursions. -/
def tac_cfg_to_ssa (f : TacFunc) (DF children : BlockId → List BlockId)
    (fuelW fuelS : Nat) : Except PyErr SSAFunc := do
  let (g, keys) ← placed f DF children fuelW
  let sF ← search (mkCtx f DF children) fuelS g.entry_block (initRen g keys)
  .ok { g with blocks := sF.blocks }

/-- Test whether an `AssignLHS` is a plain variable. -/
def AssignLHS.isVarLhs : AssignLHS → Bool
  | .var _ => true
  | .index _ => false

/-- Left-hand sides defined by a block: Φ lhs first, then assignment lhs
(the order in which the renaming step processes them). -/
def lhsList (bs : Blocks) (id : BlockId) : List AssignLHS :=
  ((blockAt bs id).phi_functions.map (·.lhs)) ++
    ((blockAt bs id).assignments.map (·.lhs))

/-- All definition left-hand sides of a function, across all blocks. -/
def allLhs (g : SSAFunc) : List AssignLHS :=
  g.nodes.flatMap (lhsList g.blocks)

/-- Variables in the domain of the rename dictionaries: the parameters
plus every variable assigned somewhere in the function. -/
def domVars (f : TacFunc) : List Var :=
  f.parameters ++
    (settingKeys (tacCfgToSsaStruct f)).filterMap (fun k =>
      match k with
      | .var v => some v
      | .index _ => none)

/-- Block ids processed by `search` (in order), assuming no failure: the
block itself followed by the traversals of its dominator-tree children. -/
def visits (children : BlockId → List BlockId) (fuel : Nat) :
    BlockId → List BlockId :=
  natIter (fun _ => []) (fun ih X => X :: (children X).flatMap ih) fuel

/-- A left-hand side produced by the renaming: a subscripted version of a
variable in the counter dictionary, with subscript strictly below the
current counter value. -/
def Stamped (s : RenSt) (l : AssignLHS) : Prop :=
  ∃ kV : Var, ∃ i c : Int,
    dfind s.C (.var kV) = some c ∧ i < c ∧ l = .var (subVarI kV i)

/-- Distinct variables in the counter domain print to distinct base
names. -/
def InjOnDom (s : RenSt) : Prop :=
  ∀ v w : Var, (dfind s.C (.var v)).isSome → (dfind s.C (.var w)).isSome →
    v.name.baseChars = w.name.baseChars → v = w

/-- No array-subscript location is in the counter domain. -/
def NoIndexDom (s : RenSt) : Prop :=
  ∀ ie : IndexE, dfind s.C (.index ie) = none

/-- Counter evolution along the traversal: every present counter stays
present and never decreases, and no key enters or leaves the counter
dictionary. -/
def cGrows (s s' : RenSt) : Prop :=
  (∀ k c, dfind s.C k = some c → ∃ c', dfind s'.C k = some c' ∧ c ≤ c') ∧
  (∀ k, (dfind s'.C k).isSome = (dfind s.C k).isSome)

/-- Invariant of the renaming traversal for SSA uniqueness: every block in
`D` has been rewritten — its lhs are pairwise distinct freshly stamped
variables — and lhs of distinct blocks in `D` do not collide. -/
def DoneInv (s : RenSt) (D : List BlockId) : Prop :=
  (∀ id ∈ D, (lhsList s.blocks id).Nodup ∧
    ∀ l ∈ lhsList s.blocks id, Stamped s l) ∧
  (∀ id ∈ D, ∀ id' ∈ D, id ≠ id' →
    ∀ l ∈ lhsList s.blocks id, l ∉ lhsList s.blocks id')

/-- Iterated removal of a list's last element (`m` Python `pop()`s). -/
def dropLastN {α : Type} : Nat → List α → List α
  | 0, l => l
  | m + 1, l => dropLastN m l.dropLast

/-- Arity invariant: every Φ-function in the arena has as many operands
as its block has predecessors. -/
def PhiArity (pr : BlockId → List BlockId) (bs : Blocks) : Prop :=
  ∀ id : BlockId, ∀ φ ∈ (blockAt bs id).phi_functions,
    φ.rhs.length = (pr id).length

/-- Invariant of the renaming traversal for a never-reassigned parameter
`V`: its stack stays `[0]` and no definition's lhs is `V`. -/
def ParamInv (V : Var) (s : RenSt) : Prop :=
  dfind s.S (.var V) = some [0] ∧
  ∀ id : BlockId, ∀ l ∈ lhsList s.blocks id, l ≠ .var V

/-- The recorded `old_lhs` entry of one assignment: the pre-rewrite lhs
for a `Var` lhs, absent for an `Index` lhs (which `search` never
records). -/
def oldOf (a : Assign) : Option AssignLHS :=
  match a.lhs with
  | .var _ => some a.lhs
  | .index _ => none

/-- A variable in printable-canonical position: a user variable has a
nonempty, `!`-free name (integer-named temporaries are unrestricted). -/
def canonicalVar (v : Var) : Bool :=
  match v.name with
  | .str s => decide (s.data ≠ [] ∧ '!' ∉ s.data)
  | .temp _ => true

/-- Concrete parameter variable `c`. -/
def cv : Var := ⟨.str "c", none⟩

/-- Concrete user variable `x`. -/
def xv : Var := ⟨.str "x", none⟩

/-- Concrete user variable `y`. -/
def yv : Var := ⟨.str "y", none⟩

/-- Concrete diamond CFG: block 0 assigns `x` and branches on parameter
`c`; blocks 1 and 2 reassign `x`; block 3 joins and returns `x`. -/
def f3 : TacFunc :=
  { parameters := [cv]
    nodes := [0, 1, 2, 3]
    content := fun id =>
      if id = 0 then ⟨[⟨.var xv, .constInt 1⟩], .condJump cv⟩
      else if id = 1 then ⟨[⟨.var xv, .constInt 2⟩], .jump⟩
      else if id = 2 then ⟨[⟨.var xv, .constInt 3⟩], .jump⟩
      else ⟨[], .ret xv⟩
    edges := [(0, 1, .true_branch), (0, 2, .false_branch),
              (1, 3, .unconditional), (2, 3, .unconditional)]
    entry_block := 0
    exit_block := 3 }

/-- Dominance frontiers of `f3` (as `networkx` computes them): blocks 1
and 2 have frontier `{3}`, blocks 0 and 3 have empty frontiers. -/
def DF3 : BlockId → List BlockId :=
  fun id => if id = 1 ∨ id = 2 then [3] else []

/-- One iteration order of `f3`'s dominator-tree child sets (children of
the entry are `{1, 2, 3}`). -/
def dc1 : BlockId → List BlockId := fun id => if id = 0 then [1, 2, 3] else []

/-- Another iteration order of the same dominator-tree child sets. -/
def dc2 : BlockId → List BlockId := fun id => if id = 0 then [2, 1, 3] else []

/-- Concrete compiler temporary `!5`. -/
def t5 : Var := ⟨.temp 5, none⟩

/-- Concrete user variable named `"5"`. -/
def s5 : Var := ⟨.str "5", none⟩

/-- Single-block function assigning both the temporary `!5` and the user
variable `"5"`: their printed base names collide. -/
def f5 : TacFunc :=
  { parameters := []
    nodes := [0]
    content := fun _ =>
      ⟨[⟨.var t5, .constInt 1⟩, ⟨.var s5, .constInt 2⟩], .ret t5⟩
    edges := []
    entry_block := 0
    exit_block := 0 }

/-- The empty child/frontier map (single-block functions). -/
def dcEmpty : BlockId → List BlockId := fun _ => []

/-- Single-block function with parameter `c` (never reassigned) and one
assignment to `y`. -/
def f1b : TacFunc :=
  { parameters := [cv]
    nodes := [0]
    content := fun _ => ⟨[⟨.var yv, .constInt 1⟩], .ret yv⟩
    edges := []
    entry_block := 0
    exit_block := 0 }

/-- The placement result for `f1b`, extracted concretely. -/
def placed1b : SSAFunc × List AssignLHS :=
  (placed f1b dcEmpty dcEmpty 3).toOption.getD
    (tacCfgToSsaStruct f1b, [])

/-- Initial rename state for `f1b`. -/
def s1b : RenSt := initRen placed1b.1 placed1b.2

/-- Final rename state for `f1b`, extracted concretely. -/
def s1bFinal : RenSt :=
  (search (mkCtx f1b dcEmpty dcEmpty) 2 0 s1b).toOption.getD s1b

/-- The SSA output for the diamond `f3`, extracted concretely. -/
def diamondOut : SSAFunc :=
  (tac_cfg_to_ssa f3 DF3 dc1 6 3).toOption.getD (tacCfgToSsaStruct f3)

/-- The SSA output for `f1b`, extracted concretely. -/
def f1bOut : SSAFunc :=
  (tac_cfg_to_ssa f1b dcEmpty dcEmpty 3 2).toOption.getD
    (tacCfgToSsaStruct f1b)

/-- The assigned-variable key of the diamond (`x`). -/
def xk : AssignLHS := .var xv

/-- The Φ-placement output for `f3`, as an explicit literal (the arena
carries the shadowed pre-placement binding of block 3, as the dict-update
embedding prescribes). -/
def g3val : SSAFunc :=
  ⟨[cv], [0, 1, 2, 3],
   [(3, ⟨[⟨xk, [xk, xk]⟩], [], .ret xv⟩),
    (0, ⟨[], [⟨.var xv, .constInt 1⟩], .condJump cv⟩),
    (1, ⟨[], [⟨.var xv, .constInt 2⟩], .jump⟩),
    (2, ⟨[], [⟨.var xv, .constInt 3⟩], .jump⟩),
    (3, ⟨[], [], .ret xv⟩)],
   [(0, 1, .true_branch), (0, 2, .false_branch),
    (1, 3, .unconditional), (2, 3, .unconditional)],
   0, 3⟩

/-- Two-block function with a self-loop on block 1: block 1 has two
predecessors, so it receives a Φ of arity two. -/
def fLoop : TacFunc :=
  { parameters := []
    nodes := [0, 1]
    content := fun id =>
      if id = 0 then ⟨[⟨.var xv, .constInt 1⟩], .jump⟩
      else ⟨[⟨.var xv, .constInt 2⟩], .ret xv⟩
    edges := [(0, 1, .unconditional), (1, 1, .unconditional)]
    entry_block := 0
    exit_block := 1 }

/-- Dominance frontiers of `fLoop`: block 1 is in its own frontier. -/
def DFLoop : BlockId → List BlockId := fun id => if id = 1 then [1] else []

/-- Dominator-tree children of `fLoop`: block 1 is the entry's child. -/
def dcLoop : BlockId → List BlockId := fun id => if id = 0 then [1] else []

/-- The SSA output for `fLoop`, extracted concretely. -/
def loopOut : SSAFunc :=
  (tac_cfg_to_ssa fLoop DFLoop dcLoop 4 3).toOption.getD
    (tacCfgToSsaStruct fLoop)

end MPC

namespace MPC

/-! Lemmas about the Python decimal printing of numbers. -/

theorem pyNatCharsAux_eq_digits (fuel : Nat) :
    ∀ n : Nat, n ≤ fuel →
      pyNatCharsAux fuel n = ((Nat.digits 10 n).map Nat.digitChar).reverse := by
  induction fuel with
  | zero =>
    intro n hn
    interval_cases n
    simp [pyNatCharsAux]
  | succ fuel ih =>
    intro n hn
    match n with
    | 0 => simp [pyNatCharsAux]
    | m + 1 =>
      have hdiv : (m + 1) / 10 ≤ fuel := by
        have := Nat.div_lt_self (Nat.succ_pos m) (by norm_num : 1 < 10)
        omega
      rw [show pyNatCharsAux (fuel + 1) (m + 1) =
            pyNatCharsAux fuel ((m + 1) / 10) ++
              [Nat.digitChar ((m + 1) % 10)] from rfl]
      rw [ih _ hdiv]
      rw [Nat.digits_def' (by norm_num : (1:ℕ) < 10) (Nat.succ_pos m)]
      simp

theorem pyNatChars_eq_digits (n : Nat) (h : n ≠ 0) :
    pyNatChars n = ((Nat.digits 10 n).map Nat.digitChar).reverse := by
  rw [pyNatChars, if_neg h]
  exact pyNatCharsAux_eq_digits n n le_rfl

theorem digitChar_ne_bang : ∀ d : Nat, d < 10 → Nat.digitChar d ≠ '!' := by
  decide

theorem digitChar_ne_dash : ∀ d : Nat, d < 10 → Nat.digitChar d ≠ '-' := by
  decide

theorem digitChar_injOn :
    ∀ d₁ : Nat, d₁ < 10 → ∀ d₂ : Nat, d₂ < 10 →
      Nat.digitChar d₁ = Nat.digitChar d₂ → d₁ = d₂ := by
  decide

theorem mem_pyNatChars (c : Char) (n : Nat) (hc : c ∈ pyNatChars n) :
    ∃ d : Nat, d < 10 ∧ c = Nat.digitChar d := by
  by_cases h : n = 0
  · subst h
    simp [pyNatChars] at hc
    exact ⟨0, by norm_num, by simp [hc, Nat.digitChar]⟩
  · rw [pyNatChars_eq_digits n h] at hc
    rw [List.mem_reverse, List.mem_map] at hc
    obtain ⟨d, hd, rfl⟩ := hc
    exact ⟨d, Nat.digits_lt_base (by norm_num) hd, rfl⟩

theorem bang_not_mem_pyNatChars (n : Nat) : '!' ∉ pyNatChars n := by
  intro h
  obtain ⟨d, hd, he⟩ := mem_pyNatChars _ _ h
  exact digitChar_ne_bang d hd he.symm

theorem dash_not_mem_pyNatChars (n : Nat) : '-' ∉ pyNatChars n := by
  intro h
  obtain ⟨d, hd, he⟩ := mem_pyNatChars _ _ h
  exact digitChar_ne_dash d hd he.symm

theorem bang_not_mem_pyIntChars (i : Int) : '!' ∉ pyIntChars i := by
  rw [pyIntChars]
  split
  · intro h
    rcases List.mem_cons.mp h with h | h
    · exact absurd h.symm (by decide)
    · exact bang_not_mem_pyNatChars _ h
  · exact bang_not_mem_pyNatChars _

theorem map_digitChar_injOn (l₁ : List Nat) :
    ∀ l₂ : List Nat, (∀ d ∈ l₁, d < 10) → (∀ d ∈ l₂, d < 10) →
      l₁.map Nat.digitChar = l₂.map Nat.digitChar → l₁ = l₂ := by
  induction l₁ with
  | nil => intro l₂ _ _ h; cases l₂ <;> simp_all
  | cons d₁ t₁ ih =>
    intro l₂ h₁ h₂ h
    cases l₂ with
    | nil => simp at h
    | cons d₂ t₂ =>
      simp only [List.map_cons, List.cons.injEq] at h
      have hd := digitChar_injOn d₁ (h₁ d₁ (by simp)) d₂ (h₂ d₂ (by simp)) h.1
      have ht := ih t₂ (fun d hd => h₁ d (by simp [hd]))
        (fun d hd => h₂ d (by simp [hd])) h.2
      rw [hd, ht]

theorem pyNatChars_injective (n m : Nat) (h : pyNatChars n = pyNatChars m) :
    n = m := by
  by_cases hn : n = 0 <;> by_cases hm : m = 0
  · omega
  · exfalso
    subst hn
    rw [pyNatChars_eq_digits m hm] at h
    simp [pyNatChars] at h
    have h' : (Nat.digits 10 m).map Nat.digitChar = ['0'] := by
      have := congrArg List.reverse h
      simpa using this.symm
    match hd : Nat.digits 10 m with
    | [] => rw [hd] at h'; simp at h'
    | [d] =>
      rw [hd] at h'
      simp at h'
      have : d < 10 := Nat.digits_lt_base (by norm_num) (by rw [hd]; simp)
      have hd0 : d = 0 := digitChar_injOn d this 0 (by norm_num)
        (by rw [h']; rfl)
      have hm0 := congrArg (Nat.ofDigits 10)
        (show Nat.digits 10 m = [0] by rw [hd, hd0])
      rw [Nat.ofDigits_digits] at hm0
      simp [Nat.ofDigits] at hm0
      exact hm hm0
    | d :: e :: rest =>
      rw [hd] at h'
      have := congrArg List.length h'
      simp at this
  · exfalso
    subst hm
    rw [pyNatChars_eq_digits n hn] at h
    simp [pyNatChars] at h
    have h' : (Nat.digits 10 n).map Nat.digitChar = ['0'] := by
      have := congrArg List.reverse h
      simpa using this
    match hd : Nat.digits 10 n with
    | [] => rw [hd] at h'; simp at h'
    | [d] =>
      rw [hd] at h'
      simp at h'
      have : d < 10 := Nat.digits_lt_base (by norm_num) (by rw [hd]; simp)
      have hd0 : d = 0 := digitChar_injOn d this 0 (by norm_num)
        (by rw [h']; rfl)
      have hn0 := congrArg (Nat.ofDigits 10)
        (show Nat.digits 10 n = [0] by rw [hd, hd0])
      rw [Nat.ofDigits_digits] at hn0
      simp [Nat.ofDigits] at hn0
      exact hn hn0
    | d :: e :: rest =>
      rw [hd] at h'
      have := congrArg List.length h'
      simp at this
  · rw [pyNatChars_eq_digits n hn, pyNatChars_eq_digits m hm] at h
    rw [List.reverse_inj] at h
    have hdig := map_digitChar_injOn _ _
      (fun d hd => Nat.digits_lt_base (by norm_num) hd)
      (fun d hd => Nat.digits_lt_base (by norm_num) hd) h
    have := congrArg (Nat.ofDigits 10) hdig
    rwa [Nat.ofDigits_digits, Nat.ofDigits_digits] at this

theorem pyIntChars_injective (i j : Int) (h : pyIntChars i = pyIntChars j) :
    i = j := by
  rw [pyIntChars, pyIntChars] at h
  split at h <;> split at h
  · simp only [List.cons.injEq, true_and] at h
    have := pyNatChars_injective _ _ h
    omega
  · exfalso
    exact dash_not_mem_pyNatChars j.natAbs (h ▸ List.mem_cons_self _ _)
  · exfalso
    exact dash_not_mem_pyNatChars i.natAbs (h ▸ List.mem_cons_self _ _)
  · have := pyNatChars_injective _ _ h
    omega

theorem bang_append_inj_left (a : List Char) :
    ∀ b d₁ d₂ : List Char, '!' ∉ a → '!' ∉ b →
      a ++ '!' :: d₁ = b ++ '!' :: d₂ → a = b ∧ d₁ = d₂ := by
  induction a with
  | nil =>
    intro b d₁ d₂ _ hb h
    cases b with
    | nil => simpa using h
    | cons c bs =>
      exfalso
      simp only [List.nil_append, List.cons_append, List.cons.injEq] at h
      exact hb (by rw [← h.1]; exact List.mem_cons_self _ _)
  | cons c as ih =>
    intro b d₁ d₂ ha hb h
    cases b with
    | nil =>
      exfalso
      simp only [List.nil_append, List.cons_append, List.cons.injEq] at h
      exact ha (by rw [h.1]; exact List.mem_cons_self _ _)
    | cons c' bs =>
      simp only [List.cons_append, List.cons.injEq] at h
      obtain ⟨rfl, h2⟩ := h
      have := ih bs d₁ d₂ (fun hm => ha (List.mem_cons_of_mem _ hm))
        (fun hm => hb (List.mem_cons_of_mem _ hm)) h2
      exact ⟨by rw [this.1], this.2⟩

theorem bang_append_inj_right (a b d₁ d₂ : List Char)
    (h₁ : '!' ∉ d₁) (h₂ : '!' ∉ d₂)
    (h : a ++ '!' :: d₁ = b ++ '!' :: d₂) : a = b ∧ d₁ = d₂ := by
  have h' := congrArg List.reverse h
  simp only [List.reverse_append, List.reverse_cons] at h'
  rw [List.append_assoc, List.append_assoc] at h'
  simp only [List.singleton_append] at h'
  have := bang_append_inj_left d₁.reverse d₂.reverse a.reverse b.reverse
    (by simpa using h₁) (by simpa using h₂) h'
  constructor
  · have := this.2
    rwa [List.reverse_inj] at this
  · have := this.1
    rwa [List.reverse_inj] at this

/-- Injectivity of the subscripted names the renamer builds: equal
`name!i` strings come from equal printed base names and equal
subscripts. -/
theorem subVarI_inj (V W : Var) (i j : Int)
    (h : subVarI V i = subVarI W j) :
    V.name.baseChars = W.name.baseChars ∧ i = j := by
  rw [subVarI, subVarI, Var.mk.injEq] at h
  have h' : V.name.baseChars ++ '!' :: pyIntChars i =
      W.name.baseChars ++ '!' :: pyIntChars j := by
    have := h.1
    rw [VarName.str.injEq] at this
    exact congrArg String.data this
  have := bang_append_inj_right _ _ _ _
    (bang_not_mem_pyIntChars i) (bang_not_mem_pyIntChars j) h'
  exact ⟨this.1, pyIntChars_injective _ _ this.2⟩

/-- The renamer's output names always contain `!`. -/
theorem bang_mem_subVarI (V : Var) (i : Int) :
    ∃ s : String, (subVarI V i).name = .str s ∧ '!' ∈ s.data := by
  refine ⟨_, rfl, ?_⟩
  simp

end MPC

namespace MPC

/-- C6 counterexample: the claim's reading fails on the source at
`t = VarType(PLAINTEXT, 0, INT)`, `s = VarType(None, None, None)` — every
field of `s` is unknown, so the claim says `could_become` holds, but the
code compares `self`'s fields and returns `False`. -/
theorem C6_counterexample :
    VarType.could_become ⟨some .plaintext, some 0, some .int⟩ ⟨none, none, none⟩
      = false ∧
    VarType.could_become_specRead
      ⟨some .plaintext, some 0, some .int⟩ ⟨none, none, none⟩ = true := by
  decide

/-- C6 (amended): `could_become t s` returns `True` iff each field of `t`
equals the corresponding field of `s` or that field of `t` itself is
unknown; an unknown field of `s` does not make a known field of `t`
acceptable. -/
theorem C6_could_become_iff (t s : VarType) :
    VarType.could_become t s = true ↔
      ((t.visibility = s.visibility ∨ t.visibility = none) ∧
       (t.datatype = s.datatype ∨ t.datatype = none) ∧
       (t.dims = s.dims ∨ t.dims = none)) := by
  simp [VarType.could_become, and_assoc]

/-- C9: `add_dim` and `drop_dim` change only the `dims` field — known
dims are incremented / decremented by one, unknown stays unknown — and
`drop_dim (add_dim t) = t`. -/
theorem C9_add_drop_dim (t : VarType) :
    t.add_dim.visibility = t.visibility ∧ t.add_dim.datatype = t.datatype ∧
    t.drop_dim.visibility = t.visibility ∧ t.drop_dim.datatype = t.datatype ∧
    t.add_dim.dims = t.dims.map (· + 1) ∧
    t.drop_dim.dims = t.dims.map (· - 1) ∧
    t.add_dim.drop_dim = t := by
  obtain ⟨v, d, dt⟩ := t
  cases d <;> simp [VarType.add_dim, VarType.drop_dim]

/-- C10: both datatype queries return without reaching the
unhandled-operation branch, and the return datatype is BOOL exactly for
the comparison and logical operators and INT for the arithmetic ones. -/
theorem C10_binop_datatypes (k : BinOpKind) :
    k.get_ret_datatype.isOk = true ∧ k.get_operand_datatypes.isOk = true ∧
    (k.get_ret_datatype = .ok .bool ↔
      k ∈ ([.lt, .gt, .lt_e, .gt_e, .eq, .not_eq, .and, .or] :
        List BinOpKind)) ∧
    (k.get_ret_datatype = .ok .int ↔
      k ∈ ([.add, .sub, .mul, .div, .mod, .shl, .shr] : List BinOpKind)) := by
  cases k <;> decide

/-- C8 counterexample: the renamer's `subscript_var` output
`Var(name="x!1")` and the distinct value `Var(name="x",
rename_subscript=1)` print identically, so equal printed form does not
imply equal `Var` values. -/
theorem C8_counterexample :
    subVarI ⟨.str "x", none⟩ 1 = ⟨.str "x!1", none⟩ ∧
    Var.str ⟨.str "x!1", none⟩ = Var.str ⟨.str "x", some 1⟩ ∧
    (⟨.str "x!1", none⟩ : Var) ≠ ⟨.str "x", some 1⟩ := by
  refine ⟨by decide, by decide, by decide⟩

/-- C8 (amended): printing is injective on the `Var`s whose string names
are nonempty and `!`-free (all user variables; integer-named temporaries
are unrestricted); the renamer's `name!subscript` values, whose names
contain `!`, are excluded by the counterexample. -/
theorem C8_str_injective (v₁ v₂ : Var)
    (h₁ : canonicalVar v₁ = true) (h₂ : canonicalVar v₂ = true)
    (h : v₁.str = v₂.str) : v₁ = v₂ := by
  obtain ⟨n₁, o₁⟩ := v₁
  obtain ⟨n₂, o₂⟩ := v₂
  have hdata := congrArg String.data h
  cases n₁ with
  | str s₁ =>
    cases n₂ with
    | str s₂ =>
      simp only [canonicalVar, decide_eq_true_eq] at h₁ h₂
      cases o₁ with
      | none =>
        cases o₂ with
        | none =>
          simp only [Var.str] at hdata
          simp only [List.append_nil] at hdata
          have : s₁ = s₂ := String.ext (by simpa using hdata)
          rw [this]
        | some j =>
          exfalso
          simp only [Var.str] at hdata
          simp only [List.append_nil] at hdata
          exact h₁.2 (hdata ▸ List.mem_append_right _ (List.mem_cons_self _ _))
      | some i =>
        cases o₂ with
        | none =>
          exfalso
          simp only [Var.str] at hdata
          simp only [List.append_nil] at hdata
          exact h₂.2
            (hdata ▸ List.mem_append_right _ (List.mem_cons_self _ _))
        | some j =>
          simp only [Var.str] at hdata
          have := bang_append_inj_right _ _ _ _
            (bang_not_mem_pyIntChars i) (bang_not_mem_pyIntChars j) hdata
          have hs : s₁ = s₂ := String.ext this.1
          have hi : i = j := pyIntChars_injective _ _ this.2
          rw [hs, hi]
    | temp n₂ =>
      exfalso
      simp only [canonicalVar, decide_eq_true_eq] at h₁
      simp only [Var.str] at hdata
      match hs : s₁.data with
      | [] => exact h₁.1 hs
      | c :: rest =>
        rw [hs] at hdata
        simp only [List.cons_append, List.cons.injEq] at hdata
        exact h₁.2 (by rw [hs, hdata.1]; exact List.mem_cons_self _ _)
  | temp n₁ =>
    cases n₂ with
    | str s₂ =>
      exfalso
      simp only [canonicalVar, decide_eq_true_eq] at h₂
      simp only [Var.str] at hdata
      match hs : s₂.data with
      | [] => exact h₂.1 hs
      | c :: rest =>
        rw [hs] at hdata
        simp only [List.cons_append, List.cons.injEq] at hdata
        exact h₂.2 (by rw [hs, ← hdata.1]; exact List.mem_cons_self _ _)
    | temp n₂ =>
      simp only [Var.str] at hdata
      simp only [List.cons_append, List.cons.injEq] at hdata
      cases o₁ with
      | none =>
        cases o₂ with
        | none =>
          simp only [List.append_nil] at hdata
          have : n₁ = n₂ := pyIntChars_injective _ _ hdata.2
          rw [this]
        | some j =>
          exfalso
          simp only [List.append_nil] at hdata
          exact bang_not_mem_pyIntChars n₁
            (hdata.2 ▸ List.mem_append_right _ (List.mem_cons_self _ _))
      | some i =>
        cases o₂ with
        | none =>
          exfalso
          simp only [List.append_nil] at hdata
          exact bang_not_mem_pyIntChars n₂
            (hdata.2 ▸ List.mem_append_right _ (List.mem_cons_self _ _))
        | some j =>
          have := bang_append_inj_right _ _ _ _
            (bang_not_mem_pyIntChars i) (bang_not_mem_pyIntChars j) hdata.2
          have hn : n₁ = n₂ := pyIntChars_injective _ _ this.1
          have hi : i = j := pyIntChars_injective _ _ this.2
          rw [hn, hi]

/-- C8 witness: the amended injectivity applied at a concrete canonical
variable. -/
theorem C8_str_injective_witness :
    (⟨.str "ab", some 3⟩ : Var) = ⟨.str "ab", some 3⟩ :=
  C8_str_injective ⟨.str "ab", some 3⟩ ⟨.str "ab", some 3⟩
    (by decide) (by decide) rfl

end MPC

namespace MPC

/-- Number-of-distinct-values bridge: a list has at most one distinct
value iff all its members are equal. -/
theorem dedup_length_le_one {α : Type} [DecidableEq α] (l : List α) :
    l.dedup.length ≤ 1 ↔ ∀ a ∈ l, ∀ b ∈ l, a = b := by
  rw [← List.card_toFinset, Finset.card_le_one]
  constructor
  · intro h a ha b hb
    exact h a (List.mem_toFinset.mpr ha) b (List.mem_toFinset.mpr hb)
  · intro h a ha b hb
    exact h a (List.mem_toFinset.mp ha) b (List.mem_toFinset.mp hb)

/-- C7: with a nonempty argument list, `VarType.merge` raises a
`TypeError` whenever two known `dims` values differ (the visibility check
may fire first, but the raise is a `TypeError` in every case and never the
length assertion); when all known `dims` agree it never fails on dims, and
a successful merge carries the common known `dims` (the first known value,
or unknown when none is known). -/
theorem C7_merge_dims (types : List VarType) (msp mdt : Bool)
    (h : types ≠ []) :
    ((∃ d₁ ∈ types.filterMap (·.dims), ∃ d₂ ∈ types.filterMap (·.dims),
        d₁ ≠ d₂) →
      ∃ e, VarType.merge types msp mdt = .error e ∧ e ≠ .assertion) ∧
    ((∀ d₁ ∈ types.filterMap (·.dims), ∀ d₂ ∈ types.filterMap (·.dims),
        d₁ = d₂) →
      VarType.merge types msp mdt ≠ .error .dimsErr ∧
      ∀ v, VarType.merge types msp mdt = .ok v →
        v.dims = (types.filterMap (·.dims)).head?) := by
  have hpos : types.length > 0 := List.length_pos.mpr h
  constructor
  · rintro ⟨d₁, hd₁, d₂, hd₂, hne⟩
    have hgt : 1 < (types.filterMap (fun t => t.dims)).dedup.length := by
      by_contra hh
      push_neg at hh
      exact hne ((dedup_length_le_one _).mp hh d₁ hd₁ d₂ hd₂)
    simp only [VarType.merge]
    rw [if_pos hpos]
    split <;>
      first
        | omega
        | exact ⟨.visibilityErr, rfl, by decide⟩
        | exact ⟨.dimsErr, rfl, by decide⟩
  · intro hall
    have hnot : ¬ 1 < (types.filterMap (fun t => t.dims)).dedup.length := by
      have hle : (types.filterMap (fun t => t.dims)).dedup.length ≤ 1 :=
        (dedup_length_le_one _).mpr hall
      omega
    simp only [VarType.merge]
    rw [if_pos hpos]
    split <;>
      first
        | omega
        | (constructor
           · intro hc
             simp at hc
           · intro v hv
             simp at hv)
        | (constructor
           · intro hc
             split at hc <;> simp at hc
           · intro v hv
             split at hv <;> simp at hv
             rw [← hv]
             simp)

/-- C7 witness: `merge` on two types with known dims 1 and 2 raises a
non-assertion `TypeError`, and on two types with equal known dims it does
not raise the dims error. -/
theorem C7_merge_dims_witness :
    (∃ e, VarType.merge [⟨none, some 1, none⟩, ⟨none, some 2, none⟩]
        true false = .error e ∧ e ≠ .assertion) ∧
    VarType.merge [⟨none, some 1, none⟩, ⟨none, some 1, none⟩]
        true false ≠ .error .dimsErr :=
  ⟨(C7_merge_dims [⟨none, some 1, none⟩, ⟨none, some 2, none⟩] true false
      (by decide)).1
      ⟨1, by decide, 2, by decide, by decide⟩,
   ((C7_merge_dims [⟨none, some 1, none⟩, ⟨none, some 1, none⟩] true false
      (by decide)).2
      (by decide)).1⟩

end MPC

namespace MPC

set_option maxHeartbeats 1000000 in
/-- C1 counterexample: on the single-block function assigning both the
temporary `Var(5)` and the user variable `Var("5")`, the pass succeeds and
produces the lhs `5!0` twice — the printed base names collide, so the
subscripted names collide. -/
theorem C1_counterexample :
    (tac_cfg_to_ssa f5 dcEmpty dcEmpty 3 2).map allLhs =
      .ok [.var ⟨.str "5!0", none⟩, .var ⟨.str "5!0", none⟩] ∧
    ¬ ([AssignLHS.var ⟨.str "5!0", none⟩,
        .var ⟨.str "5!0", none⟩].Nodup) := by
  constructor
  · decide
  · decide

end MPC

namespace MPC

end MPC

namespace MPC

/-- Monadic reduction helper for staging concrete runs. -/
theorem bind_ok_reduce {ε α β : Type} (a : α) (k : α → Except ε β) :
    (Except.ok a >>= k) = k a := rfl

/-- A projection of the pass output factors through the placement result
and the renaming traversal. -/
theorem tac_cfg_to_ssa_proj (f : TacFunc)
    (DF children : BlockId → List BlockId) (fuelW fuelS : Nat)
    (g : SSAFunc) (keys : List AssignLHS)
    (h1 : placed f DF children fuelW = .ok (g, keys))
    {β : Type} (p : SSAFunc → β) :
    (tac_cfg_to_ssa f DF children fuelW fuelS).map p =
      (search (mkCtx f DF children) fuelS g.entry_block (initRen g keys)).map
        (fun sF => p { g with blocks := sF.blocks }) := by
  unfold tac_cfg_to_ssa
  rw [h1]
  show ((search (mkCtx f DF children) fuelS g.entry_block
      (initRen g keys)).bind
        (fun sF => Except.ok { g with blocks := sF.blocks })).map p = _
  cases search (mkCtx f DF children) fuelS g.entry_block (initRen g keys) with
  | error e => rfl
  | ok sF => rfl

end MPC

namespace MPC

set_option maxHeartbeats 4000000 in
/-- C3: `tac_cfg_to_ssa` is not a function of the input CFG alone — the
renaming traversal iterates `dominance_tree[X]`, a Python `set` of
id-hashed blocks whose iteration order is unspecified across runs.  On
the diamond `f3`, the child orders `dc1` and `dc2` enumerate the same
sets, yet block 1's assignment is renamed `x!1` under one order and
`x!2` under the other, so two runs on equal inputs can produce different
SSA functions. -/
theorem C3_set_order_dependence :
    (∀ id ∈ f3.nodes, (dc1 id).Perm (dc2 id)) ∧
    (tac_cfg_to_ssa f3 DF3 dc1 6 3).map
        (fun g => (blockAt g.blocks 1).assignments) =
      .ok [⟨.var ⟨.str "x!1", none⟩, .constInt 2⟩] ∧
    (tac_cfg_to_ssa f3 DF3 dc2 6 3).map
        (fun g => (blockAt g.blocks 1).assignments) =
      .ok [⟨.var ⟨.str "x!2", none⟩, .constInt 2⟩] ∧
    ([⟨AssignLHS.var ⟨.str "x!1", none⟩, AssignRHS.constInt 2⟩] : List Assign)
      ≠ [⟨.var ⟨.str "x!2", none⟩, .constInt 2⟩] := by
  have h1 : placed f3 DF3 dc1 6 = .ok (g3val, [xk]) := by decide
  have h1' : placed f3 DF3 dc2 6 = .ok (g3val, [xk]) := by decide
  have h2 : (search (mkCtx f3 DF3 dc1) 3 0 (initRen g3val [xk])).map
      (fun st => (blockAt st.blocks 1).assignments) =
      .ok [⟨.var ⟨.str "x!1", none⟩, .constInt 2⟩] := by decide
  have h2' : (search (mkCtx f3 DF3 dc2) 3 0 (initRen g3val [xk])).map
      (fun st => (blockAt st.blocks 1).assignments) =
      .ok [⟨.var ⟨.str "x!2", none⟩, .constInt 2⟩] := by decide
  refine ⟨by decide, ?_, ?_, by decide⟩
  · rw [tac_cfg_to_ssa_proj f3 DF3 dc1 6 3 g3val [xk] h1]
    exact h2
  · rw [tac_cfg_to_ssa_proj f3 DF3 dc2 6 3 g3val [xk] h1']
    exact h2'

end MPC

namespace MPC

set_option maxHeartbeats 4000000 in
/-- C4 counterexample: on the diamond `f3` (placement verified to yield
`g3val` with one Φ for `x` at the join), running the full `search` on the
entry block does not restore the stacks: `S[x]` starts as `[]` but ends as
`[0]` — the entry pushed `0` and its unwind popped the join's leftover Φ
subscript `3` instead, because the unwind loop only pops the block's own
assignments and never the Φ-function pushes. -/
theorem C4_counterexample :
    placed f3 DF3 dc1 6 = .ok (g3val, [xk]) ∧
    g3val.entry_block = 0 ∧
    dfind (initRen g3val [xk]).S xk = some [] ∧
    (search (mkCtx f3 DF3 dc1) 3 0 (initRen g3val [xk])).map
        (fun st => dfind st.S xk) = .ok (some [0]) ∧
    (some [0] : Option (List Int)) ≠ some [] := by
  refine ⟨by decide, rfl, by decide, by decide, by decide⟩

end MPC

namespace MPC

/-- Inversion of a successful monadic bind. -/
theorem except_bind_ok_iff {ε α β : Type} (e : Except ε α)
    (k : α → Except ε β) (b : β) :
    (e >>= k) = .ok b ↔ ∃ a, e = .ok a ∧ k a = .ok b := by
  cases e with
  | error e => simp [Bind.bind, Except.bind]
  | ok a => simp [Bind.bind, Except.bind]

/-- Dict-update lookup in the block arena. -/
theorem blockAt_dput (m : Blocks) (k : BlockId) (v : Block) (id : BlockId) :
    blockAt (dput m k v) id = if id = k then v else blockAt m id := by
  show (dfind ((k, v) :: m) id).getD _ = _
  show (if id = k then some v else dfind m id).getD _ = _
  split <;> rfl

/-- Every block of an arena satisfies a property that all stored blocks
and the default block satisfy. -/
theorem blockAt_prop (P : Block → Prop) (m : Blocks)
    (hm : ∀ e ∈ m, P e.2) (hd : P ⟨[], [], .jump⟩) (id : BlockId) :
    P (blockAt m id) := by
  induction m with
  | nil => exact hd
  | cons e rest ih =>
    obtain ⟨k, v⟩ := e
    show (if id = k then some v else dfind rest id).getD _ |> P
    split
    · exact hm (k, v) (by simp)
    · exact ih (fun e he => hm e (by simp [he]))

/-- `defStep` never modifies the arena. -/
theorem defStep_blocks (s : RenSt) (L : AssignLHS) (s' : RenSt)
    (newL : AssignLHS) (old : Option AssignLHS)
    (h : defStep s L = .ok (s', newL, old)) : s'.blocks = s.blocks := by
  unfold defStep dget at h
  cases hC : dfind s.C L with
  | none => rw [hC] at h; simp [Bind.bind, Except.bind] at h
  | some i =>
    rw [hC] at h
    cases hS : dfind s.S L with
    | none => rw [hS] at h; simp [Bind.bind, Except.bind] at h
    | some stk =>
      rw [hS] at h
      simp [Bind.bind, Except.bind] at h
      rw [← h.1]

/-- `processPhis` keeps the arena and the Φ right-hand sides. -/
theorem processPhis_blocks_rhs (l : List Phi) :
    ∀ s s' l', processPhis s l = .ok (s', l') →
      s'.blocks = s.blocks ∧ l'.map (·.rhs) = l.map (·.rhs) := by
  induction l with
  | nil =>
    intro s s' l' h
    simp [processPhis] at h
    simp [h.1, h.2]
  | cons p rest ih =>
    intro s s' l' h
    rw [processPhis] at h
    rw [except_bind_ok_iff] at h
    obtain ⟨⟨s₁, newL, old⟩, hd, h⟩ := h
    rw [except_bind_ok_iff] at h
    obtain ⟨⟨s₂, rest'⟩, hr, h⟩ := h
    simp only [Except.ok.injEq, Prod.mk.injEq] at h
    obtain ⟨hs, hl⟩ := h
    have h1 := defStep_blocks _ _ _ _ _ hd
    have h2 := ih _ _ _ hr
    subst hs
    constructor
    · rw [h2.1, h1]
    · rw [← hl]
      simp [h2.2]

/-- `processAssigns` keeps the arena. -/
theorem processAssigns_blocks (l : List Assign) :
    ∀ s s' l' olds, processAssigns s l = .ok (s', l', olds) →
      s'.blocks = s.blocks := by
  induction l with
  | nil =>
    intro s s' l' olds h
    simp [processAssigns] at h
    simp [h.1]
  | cons a rest ih =>
    intro s s' l' olds h
    rw [processAssigns] at h
    rw [except_bind_ok_iff] at h
    obtain ⟨rhs', _, h⟩ := h
    rw [except_bind_ok_iff] at h
    obtain ⟨⟨s₁, newL, old⟩, hd, h⟩ := h
    rw [except_bind_ok_iff] at h
    obtain ⟨⟨s₂, rest', olds'⟩, hr, h⟩ := h
    simp only [Except.ok.injEq, Prod.mk.injEq] at h
    have h1 := defStep_blocks _ _ _ _ _ hd
    have h2 := ih _ _ _ _ hr
    rw [← h.1, h2, h1]

/-- `unwind` keeps the arena. -/
theorem unwind_blocks (olds : List (Option AssignLHS)) :
    ∀ s s', unwind s olds = .ok s' → s'.blocks = s.blocks := by
  induction olds with
  | nil =>
    intro s s' h
    simp [unwind] at h
    rw [← h]
  | cons o rest ih =>
    intro s s' h
    cases o with
    | none => simp [unwind] at h
    | some k =>
      rw [unwind] at h
      rw [except_bind_ok_iff] at h
      obtain ⟨stk, _, h⟩ := h
      cases hlast : stk.getLast? with
      | none => rw [hlast] at h; simp at h
      | some i =>
        rw [hlast] at h
        dsimp only at h
        exact (ih _ _ h).trans (by rfl)

/-- `phiRhsAt` keeps every Φ's lhs and its operand count. -/
theorem phiRhsAt_shape (s : RenSt) (j : Nat) (l : List Phi) :
    ∀ l', phiRhsAt s j l = .ok l' →
      l'.map (·.lhs) = l.map (·.lhs) ∧
      l'.map (·.rhs.length) = l.map (·.rhs.length) := by
  induction l with
  | nil =>
    intro l' h
    simp [phiRhsAt] at h
    simp [← h]
  | cons F rest ih =>
    intro l' h
    rw [phiRhsAt] at h
    cases hV : F.rhs.get? j with
    | none => rw [hV] at h; simp at h
    | some V =>
      rw [hV] at h
      dsimp only at h
      cases hS : dfind s.S V with
      | none => rw [hS] at h; simp at h
      | some stk =>
        rw [hS] at h
        dsimp only at h
        cases hlast : stk.getLast? with
        | none => rw [hlast] at h; simp at h
        | some i =>
          rw [hlast] at h
          dsimp only at h
          cases hr : phiRhsAt s j rest with
          | error e => rw [hr] at h; simp [Except.map] at h
          | ok rest' =>
            rw [hr] at h
            simp only [Except.map, Except.ok.injEq] at h
            have h2 := ih _ hr
            rw [← h]
            cases V with
            | index ie => simp [h2.1, h2.2]
            | var W => simp [h2.1, h2.2, List.length_set]

/-- `goList` preserves any state invariant that each processing step
preserves. -/
theorem goList_inv (f : BlockId → RenSt → Except PyErr RenSt)
    (Q : RenSt → Prop)
    (hf : ∀ Y s s', Q s → f Y s = .ok s' → Q s')
    (l : List BlockId) :
    ∀ s s', Q s → goList f l s = .ok s' → Q s' := by
  induction l with
  | nil =>
    intro s s' hQ h
    simp [goList] at h
    rw [← h]
    exact hQ
  | cons Y rest ih =>
    intro s s' hQ h
    rw [goList] at h
    rw [except_bind_ok_iff] at h
    obtain ⟨s₁, h1, h2⟩ := h
    exact ih _ _ (hf _ _ _ hQ h1) h2

/-- Inversion of one successful `searchBody` call into its six stages. -/
theorem searchBody_inv (ctx : Ctx) (go : BlockId → RenSt → Except PyErr RenSt)
    (X : BlockId) (s s' : RenSt) (h : searchBody ctx go X s = .ok s') :
    ∃ s₁ phis' s₂ asgns' olds term' s₄ s₅,
      processPhis s (blockAt s.blocks X).phi_functions = .ok (s₁, phis') ∧
      processAssigns s₁ (blockAt s.blocks X).assignments =
        .ok (s₂, asgns', olds) ∧
      processTerminator s₂ (blockAt s.blocks X).terminator = .ok term' ∧
      succStep ctx X
        { s₂ with blocks := dput s₂.blocks X ⟨phis', asgns', term'⟩ }
        (ctx.succs X) = .ok s₄ ∧
      goList go (ctx.children X) s₄ = .ok s₅ ∧
      unwind s₅ olds = .ok s' := by
  unfold searchBody at h
  rw [except_bind_ok_iff] at h
  obtain ⟨⟨s₁, phis'⟩, h1, h⟩ := h
  rw [except_bind_ok_iff] at h
  obtain ⟨⟨s₂, asgns', olds⟩, h2, h⟩ := h
  rw [except_bind_ok_iff] at h
  obtain ⟨term', h3, h⟩ := h
  rw [except_bind_ok_iff] at h
  obtain ⟨s₄, h4, h⟩ := h
  rw [except_bind_ok_iff] at h
  obtain ⟨s₅, h5, h6⟩ := h
  exact ⟨s₁, phis', s₂, asgns', olds, term', s₄, s₅, h1, h2, h3, h4, h5, h6⟩

end MPC

namespace MPC

/-- `stampDefs` only touches the counters and the worklist. -/
theorem stampDefs_blocks (iter : Nat) (defsV : List BlockId) :
    ∀ st : PlSt, (stampDefs iter st defsV).blocks = st.blocks := by
  unfold stampDefs
  induction defsV with
  | nil => intro st; rfl
  | cons X rest ih => intro st; exact ih _

/-- One Φ-append step preserves a blocks property that is closed under the
append. -/
theorem placeDFStep_blocks_inv (ctx : Ctx) (V : AssignLHS) (iter : Nat)
    (P : Blocks → Prop)
    (hupd : ∀ (m : Blocks) (Y : BlockId), P m →
      P (dput m Y { blockAt m Y with phi_functions :=
          (blockAt m Y).phi_functions ++
            [⟨V, List.replicate (ctx.preds Y).length V⟩] }))
    (st : PlSt) (Y : BlockId) (h : P st.blocks) :
    P ((placeDFStep ctx V iter st Y).blocks) := by
  unfold placeDFStep
  dsimp only
  split
  · split
    · exact hupd _ _ h
    · exact hupd _ _ h
  · exact h

/-- Folding Φ-append steps over a frontier preserves the property. -/
theorem placeDFfold_inv (ctx : Ctx) (V : AssignLHS) (iter : Nat)
    (P : Blocks → Prop)
    (hupd : ∀ (m : Blocks) (Y : BlockId), P m →
      P (dput m Y { blockAt m Y with phi_functions :=
          (blockAt m Y).phi_functions ++
            [⟨V, List.replicate (ctx.preds Y).length V⟩] }))
    (l : List BlockId) :
    ∀ st : PlSt, P st.blocks →
      P ((l.foldl (placeDFStep ctx V iter) st).blocks) := by
  induction l with
  | nil => intro st h; exact h
  | cons Y rest ih =>
    intro st h
    exact ih _ (placeDFStep_blocks_inv ctx V iter P hupd st Y h)

/-- The Φ-placement worklist loop preserves the property. -/
theorem placeWhile_inv (ctx : Ctx) (V : AssignLHS) (iter : Nat)
    (P : Blocks → Prop)
    (hupd : ∀ (m : Blocks) (Y : BlockId), P m →
      P (dput m Y { blockAt m Y with phi_functions :=
          (blockAt m Y).phi_functions ++
            [⟨V, List.replicate (ctx.preds Y).length V⟩] }))
    (fuelW : Nat) :
    ∀ st st', P st.blocks → placeWhile ctx V iter fuelW st = .ok st' →
      P st'.blocks := by
  induction fuelW with
  | zero => intro st st' _ h; simp [placeWhile] at h
  | succ n ih =>
    intro st st' hP h
    rw [placeWhile] at h
    cases hW : st.W with
    | nil =>
      rw [hW] at h
      simp at h
      rw [← h]
      exact hP
    | cons X W' =>
      rw [hW] at h
      dsimp only at h
      exact ih _ _
        (placeDFfold_inv ctx V iter P hupd (ctx.DF X) { st with W := W' } hP)
        h

/-- The outer Φ-placement loop preserves the property, for keys drawn from
`keys0`. -/
theorem placeVars_inv (ctx : Ctx) (defsOf : AssignLHS → List BlockId)
    (fuelW : Nat) (keys0 : List AssignLHS) (P : Blocks → Prop)
    (hupd : ∀ (V : AssignLHS), V ∈ keys0 → ∀ (m : Blocks) (Y : BlockId),
      P m →
      P (dput m Y { blockAt m Y with phi_functions :=
          (blockAt m Y).phi_functions ++
            [⟨V, List.replicate (ctx.preds Y).length V⟩] }))
    (keys : List AssignLHS) :
    ∀ iter st st', keys ⊆ keys0 → P st.blocks →
      placeVars ctx defsOf fuelW keys iter st = .ok st' → P st'.blocks := by
  induction keys with
  | nil =>
    intro iter st st' _ hP h
    simp [placeVars] at h
    rw [← h]
    exact hP
  | cons V rest ih =>
    intro iter st st' hsub hP h
    rw [placeVars] at h
    rw [except_bind_ok_iff] at h
    obtain ⟨st₁, h1, h2⟩ := h
    have hV : V ∈ keys0 := hsub (by simp)
    have hrest : rest ⊆ keys0 := fun a ha => hsub (by simp [ha])
    have hP1 : P st₁.blocks :=
      placeWhile_inv ctx V (iter + 1) P (hupd V hV) fuelW _ _
        (by rw [stampDefs_blocks]; exact hP) h1
    exact ih _ _ _ hrest hP1 h2

/-- Inversion of a successful `placed` call. -/
theorem placed_inv (f : TacFunc) (DF children : BlockId → List BlockId)
    (fuelW : Nat) (g : SSAFunc) (keys : List AssignLHS)
    (h : placed f DF children fuelW = .ok (g, keys)) :
    keys = settingKeys (tacCfgToSsaStruct f) ∧
    g.nodes = f.nodes ∧ g.edges = f.edges ∧
    g.entry_block = f.entry_block ∧ g.parameters = f.parameters ∧
    ∃ stP, placeVars (mkCtx f DF children)
        (settingBlocks (tacCfgToSsaStruct f)) fuelW
        (settingKeys (tacCfgToSsaStruct f)) 0
        ⟨(tacCfgToSsaStruct f).blocks, [], [], []⟩ = .ok stP ∧
      g.blocks = stP.blocks := by
  unfold placed at h
  rw [except_bind_ok_iff] at h
  obtain ⟨stP, h1, h2⟩ := h
  simp only [Except.ok.injEq, Prod.mk.injEq] at h2
  obtain ⟨hg, hk⟩ := h2
  refine ⟨hk.symm, ?_, ?_, ?_, ?_, stP, h1, ?_⟩ <;> (rw [← hg]; try rfl)

/-- Inversion of a successful `tac_cfg_to_ssa` call. -/
theorem tac_cfg_to_ssa_inv (f : TacFunc)
    (DF children : BlockId → List BlockId) (fuelW fuelS : Nat)
    (out : SSAFunc)
    (h : tac_cfg_to_ssa f DF children fuelW fuelS = .ok out) :
    ∃ g keys sF, placed f DF children fuelW = .ok (g, keys) ∧
      search (mkCtx f DF children) fuelS g.entry_block (initRen g keys) =
        .ok sF ∧
      out = { g with blocks := sF.blocks } := by
  unfold tac_cfg_to_ssa at h
  rw [except_bind_ok_iff] at h
  obtain ⟨⟨g, keys⟩, h1, h⟩ := h
  dsimp only at h
  rw [except_bind_ok_iff] at h
  obtain ⟨sF, h2, h3⟩ := h
  simp only [Except.ok.injEq] at h3
  exact ⟨g, keys, sF, h1, h2, h3.symm⟩

/-- Renaming initialisation does not touch the arena. -/
theorem initRen_blocks (g : SSAFunc) (keys : List AssignLHS) :
    (initRen g keys).blocks = g.blocks := by
  unfold initRen
  have fold2 : ∀ (l : List AssignLHS) (s : RenSt),
      (l.foldl (fun s V =>
        { s with S := dput s.S V [], C := dput s.C V 0 }) s).blocks =
      s.blocks := by
    intro l
    induction l with
    | nil => intro s; rfl
    | cons V rest ih => intro s; exact ih _
  have fold1 : ∀ (l : List Var) (s : RenSt),
      (l.foldl (fun s V =>
        { s with S := dput s.S (.var V) [0], C := dput s.C (.var V) 1 })
        s).blocks = s.blocks := by
    intro l
    induction l with
    | nil => intro s; rfl
    | cons V rest ih => intro s; exact ih _
  rw [fold2, fold1]

/-- The struct conversion produces no Φ-functions anywhere. -/
theorem struct_no_phis (f : TacFunc) (id : BlockId) :
    (blockAt (tacCfgToSsaStruct f).blocks id).phi_functions = [] := by
  refine blockAt_prop (fun b => b.phi_functions = []) _ ?_ rfl id
  intro e he
  simp only [tacCfgToSsaStruct, List.mem_map] at he
  obtain ⟨a, _, ha⟩ := he
  rw [← ha]

/-- `succStep` preserves the Φ-arity invariant. -/
theorem succStep_phiArity (ctx : Ctx) (X : BlockId) (l : List BlockId) :
    ∀ s s', PhiArity ctx.preds s.blocks → succStep ctx X s l = .ok s' →
      PhiArity ctx.preds s'.blocks := by
  induction l with
  | nil =>
    intro s s' hP h
    simp [succStep] at h
    rw [← h]
    exact hP
  | cons Y rest ih =>
    intro s s' hP h
    rw [succStep] at h
    cases hj : (ctx.preds Y).findIdx? (fun p => decide (p = X)) with
    | none => rw [hj] at h; simp at h
    | some j =>
      rw [hj] at h
      dsimp only at h
      cases hr : phiRhsAt s j (blockAt s.blocks Y).phi_functions with
      | error e => rw [hr] at h; simp at h
      | ok phis' =>
        rw [hr] at h
        dsimp only at h
        refine ih _ _ ?_ h
        intro id φ hφ
        rw [blockAt_dput] at hφ
        split at hφ
        · next hid =>
          simp only at hφ
          have hlen : φ.rhs.length ∈
              phis'.map (fun x => x.rhs.length) :=
            List.mem_map_of_mem _ hφ
          rw [(phiRhsAt_shape s j _ _ hr).2] at hlen
          obtain ⟨φ₀, hφ₀, hl⟩ := List.mem_map.mp hlen
          rw [hid, ← hl]
          exact hP Y φ₀ hφ₀
        · exact hP id φ hφ

/-- The renaming traversal preserves the Φ-arity invariant. -/
theorem search_phiArity (ctx : Ctx) :
    ∀ fuel X s s', PhiArity ctx.preds s.blocks →
      search ctx fuel X s = .ok s' → PhiArity ctx.preds s'.blocks := by
  intro fuel
  induction fuel with
  | zero =>
    intro X s s' _ h
    exact absurd h (by simp [search, natIter])
  | succ n ih =>
    intro X s s' hP h
    have h' : searchBody ctx (search ctx n) X s = .ok s' := h
    obtain ⟨s₁, phis', s₂, asgns', olds, term', s₄, s₅,
      h1, h2, h3, h4, h5, h6⟩ := searchBody_inv _ _ _ _ _ h'
    have hb1 := (processPhis_blocks_rhs _ _ _ _ h1).1
    have hrhs := (processPhis_blocks_rhs _ _ _ _ h1).2
    have hb2 := processAssigns_blocks _ _ _ _ _ h2
    have hP3 : PhiArity ctx.preds (dput s₂.blocks X ⟨phis', asgns', term'⟩) := by
      intro id φ hφ
      rw [blockAt_dput] at hφ
      split at hφ
      · next hid =>
        simp only at hφ
        have : φ.rhs ∈ (blockAt s.blocks X).phi_functions.map (·.rhs) := by
          rw [← hrhs]
          exact List.mem_map_of_mem _ hφ
        obtain ⟨φ₀, hφ₀, heq⟩ := List.mem_map.mp this
        rw [hid, ← heq]
        exact hP X φ₀ hφ₀
      · rw [hb2, hb1] at hφ
        exact hP id φ hφ
    have hP4 := succStep_phiArity ctx X _ _ _ hP3 h4
    have hP5 := goList_inv (search ctx n)
      (fun st => PhiArity ctx.preds st.blocks)
      (fun Y a b hQ hb => ih Y a b hQ hb) _ _ _ hP4 h5
    rw [unwind_blocks _ _ _ h6]
    exact hP5

/-- C2: every Φ-function placed by the pass has exactly one operand per
predecessor of its block, both right after Φ placement and in the final
output (the renaming step rewrites Φ operands in place, preserving the
arity). -/
theorem C2_phi_arity (f : TacFunc) (DF children : BlockId → List BlockId)
    (fuelW fuelS : Nat) :
    (∀ g keys, placed f DF children fuelW = .ok (g, keys) →
      ∀ id : BlockId, ∀ φ ∈ (blockAt g.blocks id).phi_functions,
        φ.rhs.length = (predsOf f.edges id).length) ∧
    (∀ out, tac_cfg_to_ssa f DF children fuelW fuelS = .ok out →
      ∀ id : BlockId, ∀ φ ∈ (blockAt out.blocks id).phi_functions,
        φ.rhs.length = (predsOf f.edges id).length) := by
  have hpreds : (mkCtx f DF children).preds = predsOf f.edges := rfl
  have hupd : ∀ (V : AssignLHS),
      V ∈ settingKeys (tacCfgToSsaStruct f) → ∀ (m : Blocks) (Y : BlockId),
      PhiArity (predsOf f.edges) m →
      PhiArity (predsOf f.edges)
        (dput m Y { blockAt m Y with phi_functions :=
          (blockAt m Y).phi_functions ++
            [⟨V, List.replicate ((mkCtx f DF children).preds Y).length V⟩] }) := by
    intro V _ m Y hP id φ hφ
    rw [blockAt_dput] at hφ
    split at hφ
    · next hid =>
      simp only [List.mem_append] at hφ
      rcases hφ with hφ | hφ
      · rw [hid]
        exact hP Y φ hφ
      · simp only [List.mem_singleton] at hφ
        rw [hφ, hid]
        simp [hpreds]
    · exact hP id φ hφ
  have hplaced : ∀ g keys, placed f DF children fuelW = .ok (g, keys) →
      PhiArity (predsOf f.edges) g.blocks := by
    intro g keys h
    obtain ⟨-, -, -, -, -, stP, hpv, hgb⟩ := placed_inv f DF children fuelW g keys h
    rw [hgb]
    refine placeVars_inv (mkCtx f DF children) _ fuelW _
      (PhiArity (predsOf f.edges)) hupd _ _ _ _ (fun a ha => ha) ?_ hpv
    intro id φ hφ
    rw [struct_no_phis] at hφ
    simp at hφ
  constructor
  · intro g keys h
    exact hplaced g keys h
  · intro out h
    obtain ⟨g, keys, sF, h1, h2, h3⟩ := tac_cfg_to_ssa_inv f DF children fuelW fuelS out h
    have hPinit : PhiArity (predsOf f.edges) (initRen g keys).blocks := by
      rw [initRen_blocks]
      exact hplaced g keys h1
    have hPfin := search_phiArity (mkCtx f DF children) fuelS
      g.entry_block (initRen g keys) sF hPinit h2
    rw [h3]
    exact hPfin

set_option maxHeartbeats 1000000 in
/-- C2 witness: on the self-loop function `fLoop`, the output's join block
carries exactly one Φ, and its arity matches the block's two
predecessors. -/
theorem C2_phi_arity_witness :
    (blockAt loopOut.blocks 1).phi_functions.length = 1 ∧
    ∀ φ ∈ (blockAt loopOut.blocks 1).phi_functions,
      φ.rhs.length = (predsOf fLoop.edges 1).length :=
  ⟨by decide,
   (C2_phi_arity fLoop DFLoop dcLoop 4 3).2 loopOut (by rfl) 1⟩

end MPC

namespace MPC

/-- Dropping as many last elements as were appended recovers the
original list. -/
theorem dropLastN_append {α : Type} (l₂ : List α) :
    ∀ l₁ : List α, dropLastN l₂.length (l₁ ++ l₂) = l₁ := by
  induction l₂ using List.reverseRecOn with
  | nil => intro l₁; simp [dropLastN]
  | append_singleton l₂ a ih =>
    intro l₁
    have hlen : (l₂ ++ [a]).length = l₂.length + 1 := by simp
    rw [hlen]
    show dropLastN l₂.length (l₁ ++ (l₂ ++ [a])).dropLast = l₁
    rw [← List.append_assoc, List.dropLast_concat]
    exact ih l₁

/-- `dput` lookup. -/
theorem dfind_dput {β : Type} (m : List (AssignLHS × β)) (k k' : AssignLHS)
    (v : β) :
    dfind (dput m k v) k' = if k' = k then some v else dfind m k' := rfl

/-- Full characterisation of one `defStep`. -/
theorem defStep_spec (s : RenSt) (L : AssignLHS) (s' : RenSt)
    (newL : AssignLHS) (old : Option AssignLHS)
    (h : defStep s L = .ok (s', newL, old)) :
    ∃ i stk, dfind s.C L = some i ∧ dfind s.S L = some stk ∧
      s'.blocks = s.blocks ∧
      s'.S = dput s.S L (stk ++ [i]) ∧
      s'.C = dput s.C L (i + 1) ∧
      ((∃ v, L = .var v ∧ newL = .var (subVarI v i) ∧ old = some L) ∨
       (∃ ie, L = .index ie ∧ newL = L ∧ old = none)) := by
  unfold defStep dget at h
  cases hC : dfind s.C L with
  | none => rw [hC] at h; simp [Bind.bind, Except.bind] at h
  | some i =>
    rw [hC] at h
    cases hS : dfind s.S L with
    | none => rw [hS] at h; simp [Bind.bind, Except.bind] at h
    | some stk =>
      rw [hS] at h
      simp only [Bind.bind, Except.bind, Except.ok.injEq, Prod.mk.injEq] at h
      obtain ⟨hs, hnew, hold⟩ := h
      refine ⟨i, stk, rfl, rfl, ?_, ?_, ?_, ?_⟩
      · rw [← hs]
      · rw [← hs]
      · rw [← hs]
      · cases L with
        | var v => exact Or.inl ⟨v, rfl, by rw [← hnew], by rw [← hold]⟩
        | index ie => exact Or.inr ⟨ie, rfl, by rw [← hnew], by rw [← hold]⟩

/-- `rewriteAssignRhs` never fails the state (it only reads it), so the
only state changes of `processAssigns` are its `defStep`s: per key, the
stacks gain exactly the subscripts of that key's assignments, in order,
and the recorded `old_lhs` entries are the pre-rewrite lhs (present
exactly for `Var` lhs). -/
theorem processAssigns_S (l : List Assign) :
    ∀ s s₂ l' olds, processAssigns s l = .ok (s₂, l', olds) →
      s₂.blocks = s.blocks ∧
      olds = l.map oldOf ∧
      ∀ k, ∃ vals : List Int,
        vals.length = (l.map (·.lhs)).count k ∧
        dfind s₂.S k = (dfind s.S k).map (· ++ vals) ∧
        (dfind s.S k = none → (l.map (·.lhs)).count k = 0) := by
  induction l with
  | nil =>
    intro s s₂ l' olds h
    simp [processAssigns] at h
    obtain ⟨hs, -, holds⟩ := h
    subst hs
    refine ⟨rfl, by simpa using holds.symm, ?_⟩
    intro k
    exact ⟨[], by simp, by simp, fun _ => by simp⟩
  | cons a rest ih =>
    intro s s₂ l' olds h
    rw [processAssigns] at h
    rw [except_bind_ok_iff] at h
    obtain ⟨rhs', hrhs, h⟩ := h
    rw [except_bind_ok_iff] at h
    obtain ⟨⟨s₁, newL, old⟩, hd, h⟩ := h
    rw [except_bind_ok_iff] at h
    obtain ⟨⟨s₂', rest', olds'⟩, hr, h⟩ := h
    simp only [Except.ok.injEq, Prod.mk.injEq] at h
    obtain ⟨hs2, -, holds⟩ := h
    subst hs2
    obtain ⟨i, stk, hC, hS, hb, hSput, hCput, hcase⟩ := defStep_spec _ _ _ _ _ hd
    obtain ⟨hb2, holds2, hvals⟩ := ih _ _ _ _ hr
    refine ⟨by rw [hb2, hb], ?_, ?_⟩
    · rw [← holds, holds2]
      rcases hcase with ⟨v, hL, -, hold⟩ | ⟨ie, hL, -, hold⟩ <;>
        simp [oldOf, hL, hold]
    · intro k
      obtain ⟨vals, hlen, hfind, hnone⟩ := hvals k
      by_cases hk : k = a.lhs
      · subst hk
        refine ⟨i :: vals, ?_, ?_, ?_⟩
        · simp [hlen, List.count_cons]
        · rw [hfind, hSput, dfind_dput, if_pos rfl, hS]
          simp
        · intro hcontra
          rw [hS] at hcontra
          exact absurd hcontra (by simp)
      · refine ⟨vals, ?_, ?_, ?_⟩
        · rw [hlen]
          simp [List.count_cons, hk]
        · rw [hfind, hSput, dfind_dput, if_neg hk]
        · intro hcontra
          have h1 : dfind s₁.S k = none := by
            rw [hSput, dfind_dput, if_neg hk]
            exact hcontra
          have h2 := hnone h1
          simp [List.count_cons, hk, h2]

end MPC

namespace MPC

/-- Inversion of a successful `dget`. -/
theorem dget_ok {κ β : Type} [DecidableEq κ] (m : List (κ × β)) (k : κ)
    (v : β) (h : dget m k = .ok v) : dfind m k = some v := by
  unfold dget at h
  cases hf : dfind m k with
  | none => rw [hf] at h; simp at h
  | some w => rw [hf] at h; simp at h; rw [h]

/-- The successor-Φ update loop only rewrites blocks: the rename stacks
and counters are untouched. -/
theorem succStep_S (ctx : Ctx) (X : BlockId) (l : List BlockId) :
    ∀ s s', succStep ctx X s l = .ok s' → s'.S = s.S ∧ s'.C = s.C := by
  induction l with
  | nil =>
    intro s s' h
    simp [succStep] at h
    rw [← h]
    exact ⟨rfl, rfl⟩
  | cons Y rest ih =>
    intro s s' h
    rw [succStep] at h
    cases hj : (ctx.preds Y).findIdx? (fun p => decide (p = X)) with
    | none => rw [hj] at h; simp at h
    | some j =>
      rw [hj] at h
      dsimp only at h
      cases hp : phiRhsAt s j (blockAt s.blocks Y).phi_functions with
      | error e => rw [hp] at h; simp at h
      | ok phis' =>
        rw [hp] at h
        dsimp only at h
        have := ih _ _ h
        exact ⟨this.1.trans rfl, this.2.trans rfl⟩

/-- The successor-Φ update loop keeps an all-blocks-Φ-free arena Φ-free
(a Φ-free block's Φ list is rewritten to itself, i.e. to the empty
list). -/
theorem succStep_noPhis (ctx : Ctx) (X : BlockId) (l : List BlockId) :
    ∀ s s', (∀ id, (blockAt s.blocks id).phi_functions = []) →
      succStep ctx X s l = .ok s' →
      ∀ id, (blockAt s'.blocks id).phi_functions = [] := by
  induction l with
  | nil =>
    intro s s' hnp h
    simp [succStep] at h
    rw [← h]
    exact hnp
  | cons Y rest ih =>
    intro s s' hnp h
    rw [succStep] at h
    cases hj : (ctx.preds Y).findIdx? (fun p => decide (p = X)) with
    | none => rw [hj] at h; simp at h
    | some j =>
      rw [hj] at h
      dsimp only at h
      cases hp : phiRhsAt s j (blockAt s.blocks Y).phi_functions with
      | error e => rw [hp] at h; simp at h
      | ok phis' =>
        rw [hp] at h
        dsimp only at h
        rw [hnp Y] at hp
        rw [show phiRhsAt s j ([] : List Phi) = .ok [] from rfl] at hp
        injection hp with hp
        refine ih _ _ ?_ h
        intro id
        show (blockAt (dput s.blocks Y _) id).phi_functions = []
        rw [blockAt_dput]
        split
        · rw [← hp]
        · exact hnp id

/-- Per-key characterisation of a successful unwind: every recorded entry
is present (a `None` raises `KeyError`), and each stack loses exactly as
many last elements as its key occurs in the recorded list. -/
theorem unwind_S (olds : List (Option AssignLHS)) :
    ∀ s s', unwind s olds = .ok s' →
      s'.blocks = s.blocks ∧ s'.C = s.C ∧
      (∀ o ∈ olds, o.isSome = true) ∧
      ∀ k, dfind s'.S k =
        (dfind s.S k).map (dropLastN (olds.count (some k))) := by
  induction olds with
  | nil =>
    intro s s' h
    simp [unwind] at h
    subst h
    refine ⟨rfl, rfl, by simp, ?_⟩
    intro k
    cases dfind s.S k <;> simp [dropLastN]
  | cons o rest ih =>
    intro s s' h
    cases o with
    | none => simp [unwind] at h
    | some k₀ =>
      rw [unwind] at h
      rw [except_bind_ok_iff] at h
      obtain ⟨stk, hstk, h⟩ := h
      have hfind := dget_ok _ _ _ hstk
      cases hlast : stk.getLast? with
      | none => rw [hlast] at h; simp at h
      | some i =>
        rw [hlast] at h
        dsimp only at h
        obtain ⟨hb, hC, hall, hS⟩ := ih _ _ h
        refine ⟨hb.trans rfl, hC.trans rfl, ?_, ?_⟩
        · intro o ho
          rcases List.mem_cons.mp ho with h1 | h1
          · rw [h1]; rfl
          · exact hall o h1
        · intro k
          rw [hS k]
          show (dfind (dput s.S k₀ stk.dropLast) k).map _ = _
          by_cases hk : k = k₀
          · subst hk
            rw [dfind_dput, if_pos rfl, hfind]
            rw [List.count_cons]
            simp only [Option.map_some']
            congr 1
            simp [dropLastN]
          · rw [dfind_dput, if_neg hk]
            have hii : List.count (some k) (some k₀ :: rest) =
                List.count (some k) rest := by
              rw [List.count_cons]
              simp [hk, Ne.symm hk]
            rw [hii]

/-- When every recorded `old_lhs` entry is present, occurrences of
`some k` among the records count the assignments whose pre-rewrite lhs is
`k`. -/
theorem count_olds (l : List Assign) (k : AssignLHS) :
    (∀ o ∈ l.map oldOf, o.isSome = true) →
    (l.map oldOf).count (some k) = (l.map (·.lhs)).count k := by
  induction l with
  | nil => intro _; rfl
  | cons a rest ih =>
    intro hall
    simp only [List.map_cons] at hall ⊢
    have hhd := hall _ (List.mem_cons_self _ _)
    have htl : ∀ o ∈ rest.map oldOf, o.isSome = true :=
      fun o ho => hall o (List.mem_cons_of_mem _ ho)
    cases ha : a.lhs with
    | index ie => rw [oldOf, ha] at hhd; simp at hhd
    | var v =>
      rw [List.count_cons, List.count_cons, ih htl]
      congr 1
      simp [oldOf, ha]

/-- Fuel induction for the amended unwind claim: in a Φ-free arena the
whole recursive traversal restores every rename stack (each block's
unwind pops exactly the subscripts its own assignments pushed), and the
arena stays Φ-free. -/
theorem search_restores_aux (ctx : Ctx) (fuel : Nat) :
    ∀ X s s', (∀ id, (blockAt s.blocks id).phi_functions = []) →
      search ctx fuel X s = .ok s' →
      (∀ id, (blockAt s'.blocks id).phi_functions = []) ∧
      ∀ k, dfind s'.S k = dfind s.S k := by
  induction fuel with
  | zero =>
    intro X s s' _ h
    simp [search, natIter] at h
  | succ n ih =>
    intro X s s' hnp h
    rw [show search ctx (n + 1) X s = searchBody ctx (search ctx n) X s
      from rfl] at h
    obtain ⟨s₁, phis', s₂, asgns', olds, term', s₄, s₅,
      h1, h2, h3, h4, h5, h6⟩ := searchBody_inv ctx _ X s s' h
    rw [hnp X] at h1
    rw [show processPhis s ([] : List Phi) = .ok (s, []) from rfl] at h1
    injection h1 with h1
    injection h1 with ha hb
    subst ha
    subst hb
    obtain ⟨hb2, holds, hvals⟩ := processAssigns_S _ _ _ _ _ h2
    have hnp₃ : ∀ id,
        (blockAt (dput s₂.blocks X ⟨[], asgns', term'⟩) id).phi_functions
          = [] := by
      intro id
      rw [blockAt_dput]
      split
      · rfl
      · rw [hb2]; exact hnp id
    obtain ⟨hS₄, hC₄⟩ := succStep_S ctx X (ctx.succs X) _ s₄ h4
    have hnp₄ := succStep_noPhis ctx X (ctx.succs X) _ s₄ hnp₃ h4
    have hQ := goList_inv (search ctx n)
      (fun t => (∀ id, (blockAt t.blocks id).phi_functions = []) ∧
        ∀ k, dfind t.S k = dfind s₄.S k)
      (fun Y t t' hQt ht => ⟨(ih Y t t' hQt.1 ht).1,
        fun k => ((ih Y t t' hQt.1 ht).2 k).trans (hQt.2 k)⟩)
      (ctx.children X) s₄ s₅ ⟨hnp₄, fun k => rfl⟩ h5
    obtain ⟨hb6, hC6, hall, hS6⟩ := unwind_S olds s₅ s' h6
    constructor
    · intro id
      rw [hb6]
      exact hQ.1 id
    · intro k
      rw [hS6 k, hQ.2 k, hS₄]
      show (dfind s₂.S k).map (dropLastN (olds.count (some k))) = dfind s.S k
      obtain ⟨vals, hlen, hfind, -⟩ := hvals k
      have hcnt : olds.count (some k) = vals.length := by
        rw [holds] at hall ⊢
        rw [count_olds _ k hall, hlen]
      rw [hcnt, hfind]
      cases hbase : dfind s.S k with
      | none => rfl
      | some stk =>
        simp only [Option.map_some']
        rw [dropLastN_append]

end MPC

namespace MPC

/-- C4, corrected: the unwind loop at the end of `search(X)` iterates over
`X.assignments` only, so it pops exactly the subscripts pushed for `X`'s
own assignment lhs and none of the subscripts pushed for `X`'s
Φ-function lhs.  Consequently, when no block of the arena carries a
Φ-function, the whole recursive traversal restores every rename stack
`S[V]` to its pre-call state (and the arena stays Φ-free); the unmatched
Φ pushes of a Φ-carrying block are exhibited by `C4_counterexample`. -/
theorem C4_unwind_restores (ctx : Ctx) (fuel : Nat) (X : BlockId)
    (s s' : RenSt)
    (hnp : ∀ e ∈ s.blocks, e.2.phi_functions = [])
    (h : search ctx fuel X s = .ok s') :
    (∀ id, (blockAt s'.blocks id).phi_functions = []) ∧
    ∀ k, dfind s'.S k = dfind s.S k :=
  search_restores_aux ctx fuel X s s'
    (blockAt_prop (fun B => B.phi_functions = []) s.blocks hnp rfl) h

/-- C4 witness: the single-block Φ-free function `f1b` pushes a subscript
for its one assignment to `y` and pops it again, so the final stacks of
`y` (and of the parameter `c`) equal their initial seeds. -/
theorem C4_unwind_restores_witness :
    (∀ e ∈ s1b.blocks, e.2.phi_functions = []) ∧
    search (mkCtx f1b dcEmpty dcEmpty) 2 0 s1b = .ok s1bFinal ∧
    dfind s1bFinal.S (.var yv) = dfind s1b.S (.var yv) ∧
    dfind s1bFinal.S (.var cv) = dfind s1b.S (.var cv) :=
  ⟨by decide, by decide,
   (C4_unwind_restores (mkCtx f1b dcEmpty dcEmpty) 2 0 s1b s1bFinal
     (by decide) (by decide)).2 (.var yv),
   (C4_unwind_restores (mkCtx f1b dcEmpty dcEmpty) 2 0 s1b s1bFinal
     (by decide) (by decide)).2 (.var cv)⟩

end MPC

namespace MPC

/-- A subscripted variable never equals a variable in printable-canonical
position: its name string contains the `!` separator. -/
theorem subVarI_ne_canonical (V w : Var) (j : Int)
    (hc : canonicalVar V = true) : subVarI w j ≠ V := by
  intro h
  obtain ⟨s, hname, hbang⟩ := bang_mem_subVarI w j
  rw [h] at hname
  unfold canonicalVar at hc
  rw [hname] at hc
  simp at hc
  exact hc.2 hbang

/-- Per-key stack characterisation of `processPhis`: each stack gains
exactly the subscripts of that key's Φ lhs occurrences, in order. -/
theorem processPhis_S (l : List Phi) :
    ∀ s s' l', processPhis s l = .ok (s', l') →
      ∀ k, ∃ vals : List Int,
        vals.length = (l.map (·.lhs)).count k ∧
        dfind s'.S k = (dfind s.S k).map (· ++ vals) := by
  induction l with
  | nil =>
    intro s s' l' h
    rw [show processPhis s ([] : List Phi) = .ok (s, []) from rfl] at h
    injection h with h
    injection h with ha hb
    subst ha
    intro k
    exact ⟨[], by simp, by simp⟩
  | cons p rest ih =>
    intro s s' l' h
    rw [processPhis] at h
    rw [except_bind_ok_iff] at h
    obtain ⟨⟨s₁, newL, old⟩, hd, h⟩ := h
    rw [except_bind_ok_iff] at h
    obtain ⟨⟨s₂', rest'⟩, hr, h⟩ := h
    simp only [Except.ok.injEq, Prod.mk.injEq] at h
    obtain ⟨hs2, -⟩ := h
    subst hs2
    obtain ⟨i, stk, hC, hS, hb, hSput, hCput, -⟩ := defStep_spec _ _ _ _ _ hd
    intro k
    obtain ⟨vals, hlen, hfind⟩ := ih _ _ _ hr k
    by_cases hk : k = p.lhs
    · subst hk
      refine ⟨i :: vals, ?_, ?_⟩
      · simp [hlen, List.count_cons]
      · rw [hfind, hSput, dfind_dput, if_pos rfl, hS]
        simp
    · refine ⟨vals, ?_, ?_⟩
      · rw [hlen]
        simp [List.count_cons, hk]
      · rw [hfind, hSput, dfind_dput, if_neg hk]

/-- Every Φ lhs produced by `processPhis` is either an original lhs (the
`Index` case, left unchanged) or a freshly subscripted variable. -/
theorem processPhis_newLhs (l : List Phi) :
    ∀ s s' l', processPhis s l = .ok (s', l') →
      ∀ p ∈ l', p.lhs ∈ l.map (·.lhs) ∨ ∃ w j, p.lhs = .var (subVarI w j) := by
  induction l with
  | nil =>
    intro s s' l' h
    rw [show processPhis s ([] : List Phi) = .ok (s, []) from rfl] at h
    injection h with h
    injection h with ha hb
    subst hb
    intro p hp
    simp at hp
  | cons q rest ih =>
    intro s s' l' h
    rw [processPhis] at h
    rw [except_bind_ok_iff] at h
    obtain ⟨⟨s₁, newL, old⟩, hd, h⟩ := h
    rw [except_bind_ok_iff] at h
    obtain ⟨⟨s₂', rest'⟩, hr, h⟩ := h
    simp only [Except.ok.injEq, Prod.mk.injEq] at h
    obtain ⟨-, hl⟩ := h
    obtain ⟨i, stk, -, -, -, -, -, hcase⟩ := defStep_spec _ _ _ _ _ hd
    intro p hp
    rw [← hl] at hp
    rcases List.mem_cons.mp hp with h1 | h1
    · subst h1
      rcases hcase with ⟨v, hL, hnew, -⟩ | ⟨ie, hL, hnew, -⟩
      · right
        exact ⟨v, i, hnew⟩
      · left
        show newL ∈ (q :: rest).map (·.lhs)
        rw [hnew]
        simp
    · rcases ih _ _ _ hr p h1 with h2 | h2
      · left
        simp only [List.map_cons]
        exact List.mem_cons_of_mem _ h2
      · right
        exact h2

/-- Every assignment lhs produced by `processAssigns` is either an
original lhs (the `Index` case) or a freshly subscripted variable. -/
theorem processAssigns_newLhs (l : List Assign) :
    ∀ s s' l' olds, processAssigns s l = .ok (s', l', olds) →
      ∀ a' ∈ l', a'.lhs ∈ l.map (·.lhs) ∨
        ∃ w j, a'.lhs = .var (subVarI w j) := by
  induction l with
  | nil =>
    intro s s' l' olds h
    simp [processAssigns] at h
    obtain ⟨-, hl, -⟩ := h
    intro a' ha'
    rw [hl] at ha'
    simp at ha'
  | cons a rest ih =>
    intro s s' l' olds h
    rw [processAssigns] at h
    rw [except_bind_ok_iff] at h
    obtain ⟨rhs', -, h⟩ := h
    rw [except_bind_ok_iff] at h
    obtain ⟨⟨s₁, newL, old⟩, hd, h⟩ := h
    rw [except_bind_ok_iff] at h
    obtain ⟨⟨s₂', rest', olds'⟩, hr, h⟩ := h
    simp only [Except.ok.injEq, Prod.mk.injEq] at h
    obtain ⟨-, hl, -⟩ := h
    obtain ⟨i, stk, -, -, -, -, -, hcase⟩ := defStep_spec _ _ _ _ _ hd
    intro a' ha'
    rw [← hl] at ha'
    rcases List.mem_cons.mp ha' with h1 | h1
    · subst h1
      rcases hcase with ⟨v, hL, hnew, -⟩ | ⟨ie, hL, hnew, -⟩
      · right
        exact ⟨v, i, hnew⟩
      · left
        show newL ∈ (a :: rest).map (·.lhs)
        rw [hnew]
        simp
    · rcases ih _ _ _ _ hr a' h1 with h2 | h2
      · left
        simp only [List.map_cons]
        exact List.mem_cons_of_mem _ h2
      · right
        exact h2

/-- Definition lhs of a block after a dict update. -/
theorem lhsList_dput (m : Blocks) (k : BlockId) (v : Block) (id : BlockId) :
    lhsList (dput m k v) id =
      if id = k then v.phi_functions.map (·.lhs) ++ v.assignments.map (·.lhs)
      else lhsList m id := by
  unfold lhsList
  rw [blockAt_dput]
  split <;> rfl

/-- The successor-Φ update loop preserves any property of all definition
lhs in the arena (it rewrites Φ operands only, never an lhs). -/
theorem succStep_lhs (P : AssignLHS → Prop) (ctx : Ctx) (X : BlockId)
    (l : List BlockId) :
    ∀ s s', (∀ id, ∀ L ∈ lhsList s.blocks id, P L) →
      succStep ctx X s l = .ok s' →
      ∀ id, ∀ L ∈ lhsList s'.blocks id, P L := by
  induction l with
  | nil =>
    intro s s' hP h
    simp [succStep] at h
    rw [← h]
    exact hP
  | cons Y rest ih =>
    intro s s' hP h
    rw [succStep] at h
    cases hj : (ctx.preds Y).findIdx? (fun p => decide (p = X)) with
    | none => rw [hj] at h; simp at h
    | some j =>
      rw [hj] at h
      dsimp only at h
      cases hp : phiRhsAt s j (blockAt s.blocks Y).phi_functions with
      | error e => rw [hp] at h; simp at h
      | ok phis' =>
        rw [hp] at h
        dsimp only at h
        refine ih _ _ ?_ h
        intro id L hL
        unfold lhsList at hL
        dsimp only at hL
        rw [blockAt_dput] at hL
        split at hL
        · next hid =>
          dsimp only at hL
          have hsh := (phiRhsAt_shape s j _ _ hp).1
          rcases List.mem_append.mp hL with h1 | h1
          · rw [hsh] at h1
            exact hP Y L (List.mem_append_left _ h1)
          · exact hP Y L (List.mem_append_right _ h1)
        · exact hP id L hL

/-- Lookup after the parameter-seeding fold: parameters read their seeds,
other keys are untouched. -/
theorem paramsFold_SC (l : List Var) :
    ∀ (s : RenSt) (V : Var),
      dfind ((l.foldl (fun s V =>
        { s with S := dput s.S (.var V) [0], C := dput s.C (.var V) 1 })
          s)).S (.var V) =
        (if V ∈ l then some [0] else dfind s.S (.var V)) ∧
      dfind ((l.foldl (fun s V =>
        { s with S := dput s.S (.var V) [0], C := dput s.C (.var V) 1 })
          s)).C (.var V) =
        (if V ∈ l then some 1 else dfind s.C (.var V)) := by
  induction l with
  | nil => intro s V; simp
  | cons W rest ih =>
    intro s V
    rw [List.foldl_cons]
    obtain ⟨ihS, ihC⟩ := ih
      { s with S := dput s.S (.var W) [0], C := dput s.C (.var W) 1 } V
    constructor
    · rw [ihS]
      by_cases hr : V ∈ rest
      · simp [hr]
      · by_cases hw : V = W
        · subst hw
          simp [hr, dfind_dput]
        · simp [hr, hw, dfind_dput]
    · rw [ihC]
      by_cases hr : V ∈ rest
      · simp [hr]
      · by_cases hw : V = W
        · subst hw
          simp [hr, dfind_dput]
        · simp [hr, hw, dfind_dput]

/-- Lookup after the assigned-keys seeding fold, away from the seeded
keys. -/
theorem keysFold_SC (l : List AssignLHS) :
    ∀ (s : RenSt) (k : AssignLHS), k ∉ l →
      dfind ((l.foldl (fun s V =>
        { s with S := dput s.S V [], C := dput s.C V 0 }) s)).S k =
        dfind s.S k ∧
      dfind ((l.foldl (fun s V =>
        { s with S := dput s.S V [], C := dput s.C V 0 }) s)).C k =
        dfind s.C k := by
  induction l with
  | nil => intro s k _; exact ⟨rfl, rfl⟩
  | cons W rest ih =>
    intro s k hk
    rw [List.foldl_cons]
    have hW : k ≠ W := fun h => hk (h ▸ List.mem_cons_self _ _)
    have hrest : k ∉ rest := fun h => hk (List.mem_cons_of_mem _ h)
    obtain ⟨ihS, ihC⟩ := ih
      { s with S := dput s.S W [], C := dput s.C W 0 } k hrest
    refine ⟨?_, ?_⟩
    · rw [ihS]
      show dfind (dput s.S W []) k = _
      rw [dfind_dput, if_neg hW]
    · rw [ihC]
      show dfind (dput s.C W 0) k = _
      rw [dfind_dput, if_neg hW]

/-- The rename traversal preserves the never-reassigned-parameter
invariant: the parameter's stack stays at its seed `[0]` and no lhs in
the arena ever becomes the parameter (newly stamped lhs carry `!`). -/
theorem search_paramInv (V : Var) (hc : canonicalVar V = true) (ctx : Ctx)
    (fuel : Nat) :
    ∀ X s s', ParamInv V s → search ctx fuel X s = .ok s' →
      ParamInv V s' := by
  induction fuel with
  | zero =>
    intro X s s' _ h
    simp [search, natIter] at h
  | succ n ih =>
    intro X s s' hPI h
    obtain ⟨hS0, hL0⟩ := hPI
    rw [show search ctx (n + 1) X s = searchBody ctx (search ctx n) X s
      from rfl] at h
    obtain ⟨s₁, phis', s₂, asgns', olds, term', s₄, s₅,
      h1, h2, h3, h4, h5, h6⟩ := searchBody_inv ctx _ X s s' h
    have hphiX : ∀ p ∈ (blockAt s.blocks X).phi_functions,
        p.lhs ≠ .var V := fun p hp =>
      hL0 X p.lhs (List.mem_append_left _ (List.mem_map_of_mem _ hp))
    have hasgX : ∀ a ∈ (blockAt s.blocks X).assignments,
        a.lhs ≠ .var V := fun a ha =>
      hL0 X a.lhs (List.mem_append_right _ (List.mem_map_of_mem _ ha))
    have hmemP : (AssignLHS.var V) ∉
        (blockAt s.blocks X).phi_functions.map (·.lhs) := by
      intro hmem
      obtain ⟨p, hp, hpe⟩ := List.mem_map.mp hmem
      exact hphiX p hp hpe
    obtain ⟨valsP, hlenP, hfindP⟩ := processPhis_S _ _ _ _ h1 (.var V)
    have hvP : valsP = [] := by
      rw [List.count_eq_zero.mpr hmemP] at hlenP
      exact List.length_eq_zero.mp hlenP
    have hS1 : dfind s₁.S (.var V) = some [0] := by
      rw [hfindP, hvP, hS0]
      simp
    have hb1 := (processPhis_blocks_rhs _ _ _ _ h1).1
    obtain ⟨hb2, holds, hvals⟩ := processAssigns_S _ _ _ _ _ h2
    have hmemA : (AssignLHS.var V) ∉
        (blockAt s.blocks X).assignments.map (·.lhs) := by
      intro hmem
      obtain ⟨a, ha, hae⟩ := List.mem_map.mp hmem
      exact hasgX a ha hae
    obtain ⟨valsA, hlenA, hfindA, -⟩ := hvals (.var V)
    have hvA : valsA = [] := by
      rw [List.count_eq_zero.mpr hmemA] at hlenA
      exact List.length_eq_zero.mp hlenA
    have hS2 : dfind s₂.S (.var V) = some [0] := by
      rw [hfindA, hvA, hS1]
      simp
    have holdsV : some (AssignLHS.var V) ∉ olds := by
      rw [holds]
      intro hmem
      obtain ⟨a, ha, hae⟩ := List.mem_map.mp hmem
      have hne := hasgX a ha
      cases hla : a.lhs with
      | var w =>
        simp only [oldOf, hla] at hae
        rw [hla] at hne
        exact hne (Option.some.inj hae)
      | index ie => simp [oldOf, hla] at hae
    have hphis' : ∀ p ∈ phis', p.lhs ≠ .var V := by
      intro p hp
      rcases processPhis_newLhs _ _ _ _ h1 p hp with h1' | ⟨w, j, hw⟩
      · intro he
        exact hmemP (he ▸ h1')
      · rw [hw]
        intro he
        injection he with he
        exact subVarI_ne_canonical V w j hc he
    have hasgs' : ∀ a ∈ asgns', a.lhs ≠ .var V := by
      intro a ha
      rcases processAssigns_newLhs _ _ _ _ _ h2 a ha with h1' | ⟨w, j, hw⟩
      · intro he
        exact hmemA (he ▸ h1')
      · rw [hw]
        intro he
        injection he with he
        exact subVarI_ne_canonical V w j hc he
    have haux : ∀ id, ∀ L ∈ lhsList
        (dput s₂.blocks X ⟨phis', asgns', term'⟩) id, L ≠ .var V := by
      intro id L hL
      rw [lhsList_dput] at hL
      split at hL
      · dsimp only at hL
        rcases List.mem_append.mp hL with hm | hm
        · obtain ⟨p, hp, hpe⟩ := List.mem_map.mp hm
          rw [← hpe]
          exact hphis' p hp
        · obtain ⟨a, ha, hae⟩ := List.mem_map.mp hm
          rw [← hae]
          exact hasgs' a ha
      · rw [lhsList] at hL
        rw [hb2, hb1] at hL
        exact hL0 id L hL
    have hPI₃ : ParamInv V
        { s₂ with blocks := dput s₂.blocks X ⟨phis', asgns', term'⟩ } :=
      ⟨hS2, fun id L hL => haux id L hL⟩
    obtain ⟨hS₄, -⟩ := succStep_S ctx X (ctx.succs X) _ s₄ h4
    have hL₄ := succStep_lhs (fun L => L ≠ .var V) ctx X (ctx.succs X)
      _ s₄ hPI₃.2 h4
    have hPI₄ : ParamInv V s₄ := ⟨by rw [hS₄]; exact hS2, hL₄⟩
    have hPI₅ := goList_inv (search ctx n) (ParamInv V)
      (fun Y t t' hQ ht => ih Y t t' hQ ht) (ctx.children X) s₄ s₅ hPI₄ h5
    obtain ⟨hb6, -, -, hS6⟩ := unwind_S olds s₅ s' h6
    refine ⟨?_, ?_⟩
    · rw [hS6 (.var V), List.count_eq_zero.mpr holdsV, hPI₅.1]
      rfl
    · intro id L hL
      rw [hb6] at hL
      exact hPI₅.2 id L hL

end MPC

namespace MPC

/-- C5: the renaming initialisation seeds every parameter `V` (not
overwritten by the assigned-lhs seeding loop, i.e. never reassigned) with
`S[V] = [0]` and `C[V] = 1`; a read through `subscript_var` of any
variable whose stack is `[0]` yields `V!0` rather than a `KeyError` or
`IndexError`; and the traversal preserves the never-reassigned
parameter's stack `[0]` (its lhs never reappears, since stamped lhs
contain `!`), so such reads succeed with subscript `0` throughout. -/
theorem C5_param_seeding :
    (∀ (g : SSAFunc) (keys : List AssignLHS) (V : Var), V ∈ g.parameters →
      (AssignLHS.var V) ∉ keys →
      dfind (initRen g keys).S (.var V) = some [0] ∧
      dfind (initRen g keys).C (.var V) = some 1) ∧
    (∀ (s : RenSt) (V : Var), dfind s.S (.var V) = some [0] →
      subVarTop s V = .ok (subVarI V 0)) ∧
    (∀ (V : Var), canonicalVar V = true → ∀ (ctx : Ctx) (fuel : Nat)
      (X : BlockId) (s s' : RenSt), ParamInv V s →
      search ctx fuel X s = .ok s' → ParamInv V s') := by
  refine ⟨?_, ?_, ?_⟩
  · intro g keys V hV hk
    constructor
    · show dfind ((keys.foldl (fun (s : RenSt) V =>
        { s with S := dput s.S V [], C := dput s.C V 0 })
          (g.parameters.foldl (fun (s : RenSt) V =>
            { s with S := dput s.S (.var V) [0], C := dput s.C (.var V) 1 })
            (⟨g.blocks, [], []⟩ : RenSt)))).S (.var V) = some [0]
      rw [(keysFold_SC _ _ _ hk).1, (paramsFold_SC _ _ _).1, if_pos hV]
    · show dfind ((keys.foldl (fun (s : RenSt) V =>
        { s with S := dput s.S V [], C := dput s.C V 0 })
          (g.parameters.foldl (fun (s : RenSt) V =>
            { s with S := dput s.S (.var V) [0], C := dput s.C (.var V) 1 })
            (⟨g.blocks, [], []⟩ : RenSt)))).C (.var V) = some 1
      rw [(keysFold_SC _ _ _ hk).2, (paramsFold_SC _ _ _).2, if_pos hV]
  · intro s V h
    unfold subVarTop dget
    rw [h]
    rfl
  · exact fun V hc ctx fuel => search_paramInv V hc ctx fuel

/-- C5 witness: on `f1b` the parameter `c` is seeded with stack `[0]` and
counter `1`, and after the full traversal a read of `c` still rewrites to
`c!0`. -/
theorem C5_param_seeding_witness :
    dfind s1b.S (.var cv) = some [0] ∧
    dfind s1b.C (.var cv) = some 1 ∧
    subVarTop s1bFinal cv = .ok (subVarI cv 0) := by
  have h1 := C5_param_seeding.1 placed1b.1 placed1b.2 cv (by decide)
    (by decide)
  have hPI : ParamInv cv s1b := by
    refine ⟨by decide, ?_⟩
    intro id
    exact blockAt_prop (fun B => ∀ L ∈ B.phi_functions.map (·.lhs) ++
      B.assignments.map (·.lhs), L ≠ .var cv) s1b.blocks (by decide)
      (by decide) id
  have hPI' := C5_param_seeding.2.2 cv (by decide)
    (mkCtx f1b dcEmpty dcEmpty) 2 0 s1b s1bFinal hPI (by decide)
  exact ⟨h1.1, h1.2, C5_param_seeding.2.1 s1bFinal cv hPI'.1⟩

end MPC

namespace MPC

/-- Reflexivity of counter evolution. -/
theorem cGrows_refl (s : RenSt) : cGrows s s :=
  ⟨fun k c h => ⟨c, h, le_rfl⟩, fun k => rfl⟩

/-- Counter evolution is unaffected by fields other than `C`. -/
theorem cGrows_of_Ceq (s s' : RenSt) (h : s'.C = s.C) : cGrows s s' :=
  ⟨fun k c hc => ⟨c, by rw [h]; exact hc, le_rfl⟩, fun k => by rw [h]⟩

/-- Transitivity of counter evolution. -/
theorem cGrows_trans (s₁ s₂ s₃ : RenSt) (h₁ : cGrows s₁ s₂)
    (h₂ : cGrows s₂ s₃) : cGrows s₁ s₃ := by
  refine ⟨?_, fun k => (h₂.2 k).trans (h₁.2 k)⟩
  intro k c hc
  obtain ⟨c', hc', hle⟩ := h₁.1 k c hc
  obtain ⟨c'', hc'', hle'⟩ := h₂.1 k c' hc'
  exact ⟨c'', hc'', hle.trans hle'⟩

/-- A stamped lhs stays stamped as counters grow. -/
theorem Stamped_mono (s s' : RenSt) (hg : cGrows s s') (l : AssignLHS)
    (h : Stamped s l) : Stamped s' l := by
  obtain ⟨kV, i, c, hc, hi, hl⟩ := h
  obtain ⟨c', hc', hle⟩ := hg.1 _ _ hc
  exact ⟨kV, i, c', hc', lt_of_lt_of_le hi hle, hl⟩

/-- Base-name injectivity on the counter domain survives counter
evolution (the domain is stable). -/
theorem InjOnDom_mono (s s' : RenSt) (hg : cGrows s s')
    (h : InjOnDom s) : InjOnDom s' := by
  intro v w hv hw hb
  rw [hg.2] at hv hw
  exact h v w hv hw hb

/-- Absence of array-subscript keys survives counter evolution. -/
theorem NoIndexDom_mono (s s' : RenSt) (hg : cGrows s s')
    (h : NoIndexDom s) : NoIndexDom s' := by
  intro ie
  have := hg.2 (.index ie)
  rw [h ie] at this
  cases hf : dfind s'.C (.index ie) with
  | none => rfl
  | some c => rw [hf] at this; simp at this

/-- One `defStep` on a variable key grows that key's counter by one and
leaves the others. -/
theorem defStep_cGrows (s : RenSt) (L : AssignLHS) (s' : RenSt)
    (newL : AssignLHS) (old : Option AssignLHS)
    (h : defStep s L = .ok (s', newL, old)) : cGrows s s' := by
  obtain ⟨i, stk, hC, hS, hb, hSput, hCput, -⟩ := defStep_spec _ _ _ _ _ h
  constructor
  · intro k c hc
    rw [hCput, dfind_dput]
    by_cases hk : k = L
    · subst hk
      rw [hC] at hc
      injection hc with hc
      exact ⟨i + 1, by rw [if_pos rfl], by omega⟩
    · exact ⟨c, by rw [if_neg hk]; exact hc, le_rfl⟩
  · intro k
    rw [hCput, dfind_dput]
    by_cases hk : k = L
    · subst hk
      rw [if_pos rfl, hC]
      rfl
    · rw [if_neg hk]

/-- Processing the Φ-functions of a block under a `Var`-only counter
domain: the counters grow, the rewritten lhs are pairwise distinct, each
is stamped below the new counters, and none was stamped below the old
counters (freshness). -/
theorem processPhis_fresh (l : List Phi) :
    ∀ s s' l', InjOnDom s → NoIndexDom s →
      processPhis s l = .ok (s', l') →
      cGrows s s' ∧
      (l'.map (·.lhs)).Nodup ∧
      (∀ L ∈ l'.map (·.lhs), Stamped s' L) ∧
      (∀ L ∈ l'.map (·.lhs), ¬ Stamped s L) := by
  induction l with
  | nil =>
    intro s s' l' hinj hnix h
    rw [show processPhis s ([] : List Phi) = .ok (s, []) from rfl] at h
    injection h with h
    injection h with ha hb
    subst ha
    subst hb
    exact ⟨cGrows_refl s, by simp, by simp, by simp⟩
  | cons p rest ih =>
    intro s s' l' hinj hnix h
    rw [processPhis] at h
    rw [except_bind_ok_iff] at h
    obtain ⟨⟨s₁, newL, old⟩, hd, h⟩ := h
    rw [except_bind_ok_iff] at h
    obtain ⟨⟨s₂', rest'⟩, hr, h⟩ := h
    simp only [Except.ok.injEq, Prod.mk.injEq] at h
    obtain ⟨hs2, hl⟩ := h
    subst hs2
    obtain ⟨i, stk, hC, hS, hb, hSput, hCput, hcase⟩ := defStep_spec _ _ _ _ _ hd
    have hg₁ : cGrows s s₁ := defStep_cGrows _ _ _ _ _ hd
    rcases hcase with ⟨v, hL, hnew, -⟩ | ⟨ie, hL, -, -⟩
    · have hC1v : dfind s₁.C (.var v) = some (i + 1) := by
        rw [hCput, ← hL, dfind_dput, if_pos rfl]
      have hstamp₁ : Stamped s₁ newL :=
        ⟨v, i, i + 1, hC1v, by omega, hnew⟩
      have hfresh : ¬ Stamped s newL := by
        rintro ⟨kW, j, c, hW, hj, hlw⟩
        rw [hnew] at hlw
        injection hlw with hlw
        obtain ⟨hbase, hij⟩ := subVarI_inj _ _ _ _ hlw
        have hveq : v = kW := by
          refine hinj v kW ?_ ?_ hbase
          · rw [← hL, hC]; rfl
          · rw [hW]; rfl
        subst hveq
        rw [← hL, hC] at hW
        injection hW with hW
        omega
      obtain ⟨hg₂, hnd, hstA, hstF⟩ :=
        ih s₁ s₂' rest' (InjOnDom_mono _ _ hg₁ hinj)
          (NoIndexDom_mono _ _ hg₁ hnix) hr
      rw [← hl]
      refine ⟨cGrows_trans _ _ _ hg₁ hg₂, ?_, ?_, ?_⟩
      · simp only [List.map_cons]
        refine List.Nodup.cons ?_ hnd
        intro hmem
        exact hstF newL hmem hstamp₁
      · intro L hL'
        simp only [List.map_cons] at hL'
        rcases List.mem_cons.mp hL' with h1 | h1
        · rw [h1]
          exact Stamped_mono _ _ hg₂ _ hstamp₁
        · exact hstA L h1
      · intro L hL'
        simp only [List.map_cons] at hL'
        rcases List.mem_cons.mp hL' with h1 | h1
        · rw [h1]
          exact hfresh
        · intro hst
          exact hstF L h1 (Stamped_mono _ _ hg₁ _ hst)
    · exfalso
      rw [hL] at hC
      rw [hnix ie] at hC
      exact Option.noConfusion hC

/-- The assignment analogue of `processPhis_fresh` (operand rewriting
reads the state but never changes it). -/
theorem processAssigns_fresh (l : List Assign) :
    ∀ s s' l' olds, InjOnDom s → NoIndexDom s →
      processAssigns s l = .ok (s', l', olds) →
      cGrows s s' ∧
      (l'.map (·.lhs)).Nodup ∧
      (∀ L ∈ l'.map (·.lhs), Stamped s' L) ∧
      (∀ L ∈ l'.map (·.lhs), ¬ Stamped s L) := by
  induction l with
  | nil =>
    intro s s' l' olds hinj hnix h
    simp [processAssigns] at h
    obtain ⟨ha, hb, -⟩ := h
    subst ha
    subst hb
    exact ⟨cGrows_refl s, by simp, by simp, by simp⟩
  | cons a rest ih =>
    intro s s' l' olds hinj hnix h
    rw [processAssigns] at h
    rw [except_bind_ok_iff] at h
    obtain ⟨rhs', -, h⟩ := h
    rw [except_bind_ok_iff] at h
    obtain ⟨⟨s₁, newL, old⟩, hd, h⟩ := h
    rw [except_bind_ok_iff] at h
    obtain ⟨⟨s₂', rest', olds'⟩, hr, h⟩ := h
    simp only [Except.ok.injEq, Prod.mk.injEq] at h
    obtain ⟨hs2, hl, -⟩ := h
    subst hs2
    obtain ⟨i, stk, hC, hS, hb, hSput, hCput, hcase⟩ := defStep_spec _ _ _ _ _ hd
    have hg₁ : cGrows s s₁ := defStep_cGrows _ _ _ _ _ hd
    rcases hcase with ⟨v, hL, hnew, -⟩ | ⟨ie, hL, -, -⟩
    · have hC1v : dfind s₁.C (.var v) = some (i + 1) := by
        rw [hCput, ← hL, dfind_dput, if_pos rfl]
      have hstamp₁ : Stamped s₁ newL :=
        ⟨v, i, i + 1, hC1v, by omega, hnew⟩
      have hfresh : ¬ Stamped s newL := by
        rintro ⟨kW, j, c, hW, hj, hlw⟩
        rw [hnew] at hlw
        injection hlw with hlw
        obtain ⟨hbase, hij⟩ := subVarI_inj _ _ _ _ hlw
        have hveq : v = kW := by
          refine hinj v kW ?_ ?_ hbase
          · rw [← hL, hC]; rfl
          · rw [hW]; rfl
        subst hveq
        rw [← hL, hC] at hW
        injection hW with hW
        omega
      obtain ⟨hg₂, hnd, hstA, hstF⟩ :=
        ih s₁ s₂' rest' olds' (InjOnDom_mono _ _ hg₁ hinj)
          (NoIndexDom_mono _ _ hg₁ hnix) hr
      rw [← hl]
      refine ⟨cGrows_trans _ _ _ hg₁ hg₂, ?_, ?_, ?_⟩
      · simp only [List.map_cons]
        refine List.Nodup.cons ?_ hnd
        intro hmem
        exact hstF newL hmem hstamp₁
      · intro L hL'
        simp only [List.map_cons] at hL'
        rcases List.mem_cons.mp hL' with h1 | h1
        · rw [h1]
          exact Stamped_mono _ _ hg₂ _ hstamp₁
        · exact hstA L h1
      · intro L hL'
        simp only [List.map_cons] at hL'
        rcases List.mem_cons.mp hL' with h1 | h1
        · rw [h1]
          exact hfresh
        · intro hst
          exact hstF L h1 (Stamped_mono _ _ hg₁ _ hst)
    · exfalso
      rw [hL] at hC
      rw [hnix ie] at hC
      exact Option.noConfusion hC

end MPC
